import Mathlib

/-!
Verification development for the blazing_SEARCH repository: a shallow
embedding of its indexing/search core (Ukrainian stemmer, inverted index,
folder reconciler, DOCX numbering extractor, search evaluator) together
with theorems settling the frozen specification claims.

Strings are modelled as `List Char`.  Rust's `&str` operations that work
on UTF-8 byte offsets (`str::find`, `str::len`) are modelled on the char
list with explicit UTF-8 byte counting (`Char.utf8Size`), so byte
arithmetic in the source is mirrored faithfully.  `HashMap`/`HashSet`
are modelled as association lists / duplicate-free lists with
insert-replace / insert-if-absent semantics.
-/

namespace Blazing

/-- The apostrophe character (U+0027), written via its code point. -/
def aposChar : Char := Char.ofNat 39

/-- Lowercasing table modelling Rust `str::to_lowercase` restricted to the
alphabets this program manipulates: ASCII letters and the Cyrillic letters
used by Ukrainian (the basic range У+0410..У+042F plus Ґ, Є, І, Ї).
All other characters are left unchanged, as Unicode lowercasing leaves
them unchanged on this program's data. -/
def lowerPairs : List (Char × Char) :=
  [('A','a'),('B','b'),('C','c'),('D','d'),('E','e'),('F','f'),('G','g'),
   ('H','h'),('I','i'),('J','j'),('K','k'),('L','l'),('M','m'),('N','n'),
   ('O','o'),('P','p'),('Q','q'),('R','r'),('S','s'),('T','t'),('U','u'),
   ('V','v'),('W','w'),('X','x'),('Y','y'),('Z','z'),
   ('А','а'),('Б','б'),('В','в'),('Г','г'),('Д','д'),('Е','е'),('Ж','ж'),
   ('З','з'),('И','и'),('Й','й'),('К','к'),('Л','л'),('М','м'),('Н','н'),
   ('О','о'),('П','п'),('Р','р'),('С','с'),('Т','т'),('У','у'),('Ф','ф'),
   ('Х','х'),('Ц','ц'),('Ч','ч'),('Ш','ш'),('Щ','щ'),('Ъ','ъ'),('Ы','ы'),
   ('Ь','ь'),('Э','э'),('Ю','ю'),('Я','я'),
   ('Ґ','ґ'),('Є','є'),('І','і'),('Ї','ї')]

/-- Lowercase one character (see `lowerPairs`). -/
def lowerChar (c : Char) : Char := (lowerPairs.lookup c).getD c

/-- Model of Rust `to_lowercase` on a whole string. -/
def toLower (s : List Char) : List Char := s.map lowerChar

/-- The Ukrainian vowels from `UKRAINIAN_VOWELS` in the source. -/
def ukrainianVowels : List Char := ['а','е','є','и','і','ї','о','у','ю','я','ь']

/-- `UKRAINIAN_VOWELS.contains(c) || c == 'й'`, the trailing-character test
of the stemmers' vowel-stripping loop. -/
def isVowelOrI (c : Char) : Bool := ukrainianVowels.contains c || c == 'й'

/-- Rust `result.ends_with(suf)`. -/
def endsWith (s suf : List Char) : Bool := suf.isSuffixOf s

/-- Rust `result.starts_with(pre)`. -/
def startsWith (s pre : List Char) : Bool := pre.isPrefixOf s

/-- Rust `result[..result.len() - n]` where the dropped `n` bytes are a
matched suffix of `n` characters (2-byte Cyrillic characters throughout,
so char counting and the byte arithmetic of the source agree). -/
def dropSuffixN (s : List Char) (n : Nat) : List Char := s.take (s.length - n)

/-- The `while`-loop of the stemmers that pops trailing Ukrainian vowels
and `й` (equivalently, drop the longest such suffix). -/
def dropTrailingVowels : List Char → List Char
  | [] => []
  | c :: cs =>
    match dropTrailingVowels cs with
    | [] => if isVowelOrI c then [] else [c]
    | r :: rs => c :: r :: rs

namespace Stemmer

/-- `stem_word_part` from `src/stemmer.rs` (the C1 stemmer): strip one of
`ець`/`ця`/`цю`, then `ого`, then `ому`, then trailing vowels, then apply
the `фед` special rule. -/
def stem_word_part (w : List Char) : List Char :=
  let r1 :=
    if endsWith w ['е','ц','ь'] then dropSuffixN w 3
    else if endsWith w ['ц','я'] then dropSuffixN w 2
    else if endsWith w ['ц','ю'] then dropSuffixN w 2
    else w
  let r2 := if endsWith r1 ['о','г','о'] then dropSuffixN r1 3 else r1
  let r3 := if endsWith r2 ['о','м','у'] then dropSuffixN r2 3 else r2
  let r4 := dropTrailingVowels r3
  if startsWith r4 ['ф','е','д'] &&
      (endsWith r4 ['і','р'] || endsWith r4 ['о','р'] || endsWith r4 ['і'])
  then ['ф','е','д'] else r4

/-- `stem_word` from `src/stemmer.rs`: lowercase, split hyphenated words,
stem each part, rejoin with `-`. -/
def stem_word (w : List Char) : List Char :=
  let word := toLower w
  if word.contains '-' then
    List.intercalate ['-'] ((word.splitOn '-').map stem_word_part)
  else
    stem_word_part word

end Stemmer

namespace InvIdx

/-- `InvertedIndex::stem_word_part` from `src/inverted_index.rs`.  Unlike
the C1 stemmer it has no `фед` special rule. -/
def stem_word_part (w : List Char) : List Char :=
  let r1 :=
    if endsWith w ['е','ц','ь'] then dropSuffixN w 3
    else if endsWith w ['ц','я'] then dropSuffixN w 2
    else if endsWith w ['ц','ю'] then dropSuffixN w 2
    else w
  let r2 := if endsWith r1 ['о','г','о'] then dropSuffixN r1 3 else r1
  let r3 := if endsWith r2 ['о','м','у'] then dropSuffixN r2 3 else r2
  dropTrailingVowels r3

/-- `InvertedIndex::stem_word` from `src/inverted_index.rs`. -/
def stem_word (w : List Char) : List Char :=
  let word := toLower w
  if word.contains '-' then
    List.intercalate ['-'] ((word.splitOn '-').map stem_word_part)
  else
    stem_word_part word

end InvIdx

namespace SearchEng

/-- `SearchEngine::stem_word_part` from `src/search_engine.rs`.  Like the
inverted-index copy it has no `фед` special rule. -/
def stem_word_part (w : List Char) : List Char :=
  let r1 :=
    if endsWith w ['е','ц','ь'] then dropSuffixN w 3
    else if endsWith w ['ц','я'] then dropSuffixN w 2
    else if endsWith w ['ц','ю'] then dropSuffixN w 2
    else w
  let r2 := if endsWith r1 ['о','г','о'] then dropSuffixN r1 3 else r1
  let r3 := if endsWith r2 ['о','м','у'] then dropSuffixN r2 3 else r2
  dropTrailingVowels r3

/-- `SearchEngine::stem_word` from `src/search_engine.rs`. -/
def stem_word (w : List Char) : List Char :=
  let word := toLower w
  if word.contains '-' then
    List.intercalate ['-'] ((word.splitOn '-').map stem_word_part)
  else
    stem_word_part word

end SearchEng

/-- Rule 4 of the C1 stemmer as a standalone condition (the test guarding
the `фед` replacement in `src/stemmer.rs`). -/
def fedCond (r : List Char) : Bool :=
  startsWith r ['ф','е','д'] &&
    (endsWith r ['і','р'] || endsWith r ['о','р'] || endsWith r ['і'])

/-- The final `фед` replacement step of the C1 stemmer, as a function. -/
def fedFix (r : List Char) : List Char := if fedCond r then ['ф','е','д'] else r

theorem stemmer_part_eq_fedFix (w : List Char) :
    Stemmer.stem_word_part w = fedFix (InvIdx.stem_word_part w) := rfl

theorem searchEng_part_eq (w : List Char) :
    SearchEng.stem_word_part w = InvIdx.stem_word_part w := rfl

example : Stemmer.stem_word ("донецького".toList) = "донецьк".toList := by decide
example : Stemmer.stem_word ("федір".toList) = "фед".toList := by decide
example : Stemmer.stem_word ("федора".toList) = "фед".toList := by decide
example : Stemmer.stem_word ("ігоря".toList) = "ігор".toList := by decide
example : InvIdx.stem_word ("федір".toList) = "федір".toList := by decide
example : Stemmer.stem_word ("донецько-луганський".toList)
    = "донецьк-луганськ".toList := by decide

/-! ### Lemmas about lowercasing -/

theorem lookup_mem_snd {α β : Type} [BEq α] {a : α} {b : β} :
    ∀ {l : List (α × β)}, l.lookup a = some b → b ∈ l.map Prod.snd := by
  intro l
  induction l with
  | nil => intro h; simp [List.lookup] at h
  | cons p ps ih =>
    obtain ⟨k, v⟩ := p
    intro h
    simp only [List.lookup] at h
    cases hak : a == k with
    | true => rw [hak] at h; simp at h; simp [h]
    | false => rw [hak] at h; simp only [List.map_cons, List.mem_cons]; exact Or.inr (ih h)

theorem lowerPairs_snd_fixed :
    ∀ v ∈ lowerPairs.map Prod.snd, lowerPairs.lookup v = none := by decide

theorem lowerChar_idem (c : Char) : lowerChar (lowerChar c) = lowerChar c := by
  unfold lowerChar
  cases h : lowerPairs.lookup c with
  | none => simp only [Option.getD_none]; rw [h]; rfl
  | some v =>
    simp only [Option.getD_some]
    rw [lowerPairs_snd_fixed v (lookup_mem_snd h)]
    rfl

theorem toLower_fixed (s : List Char) : ∀ c ∈ toLower s, lowerChar c = c := by
  intro c hc
  obtain ⟨d, _, rfl⟩ := List.mem_map.mp hc
  exact lowerChar_idem d

theorem toLower_eq_self {s : List Char} (h : ∀ c ∈ s, lowerChar c = c) :
    toLower s = s := by
  unfold toLower
  rw [List.map_congr_left h]
  simp

/-! ### Lemmas about the trailing-vowel loop -/

theorem dtv_pre (s : List Char) : dropTrailingVowels s <+: s := by
  induction s with
  | nil => simp [dropTrailingVowels]
  | cons c cs ih =>
    rw [dropTrailingVowels]
    cases h : dropTrailingVowels cs with
    | nil =>
      by_cases hv : isVowelOrI c
      · simp [hv]
      · simp [hv, List.cons_prefix_cons]
    | cons r rs =>
      rw [h] at ih
      exact List.cons_prefix_cons.mpr ⟨rfl, ih⟩

theorem dtv_last (s : List Char) :
    ∀ c, (dropTrailingVowels s).getLast? = some c → isVowelOrI c = false := by
  induction s with
  | nil => intro c h; simp [dropTrailingVowels] at h
  | cons a cs ih =>
    intro c h
    rw [dropTrailingVowels] at h
    cases hcs : dropTrailingVowels cs with
    | nil =>
      rw [hcs] at h
      by_cases hv : isVowelOrI a
      · simp [hv] at h
      · simp [hv] at h
        subst h
        simpa using hv
    | cons r rs =>
      rw [hcs] at h
      rw [List.getLast?_cons_cons] at h
      rw [hcs] at ih
      exact ih c h

theorem dtv_noop (s : List Char) :
    (∀ c, s.getLast? = some c → isVowelOrI c = false) → dropTrailingVowels s = s := by
  induction s with
  | nil => intro _; rfl
  | cons a cs ih =>
    intro h
    rw [dropTrailingVowels]
    cases cs with
    | nil =>
      have ha : isVowelOrI a = false := h a (by simp)
      simp [dropTrailingVowels, ha]
    | cons b bs =>
      have hcs : dropTrailingVowels (b :: bs) = b :: bs := by
        apply ih
        intro c hc
        apply h
        rwa [List.getLast?_cons_cons]
      rw [hcs]

/-! ### Lemmas about `endsWith` -/

theorem endsWith_getLast? {s suf : List Char} (h : endsWith s suf = true)
    (hne : suf ≠ []) : s.getLast? = suf.getLast? := by
  unfold endsWith at h
  rw [List.isSuffixOf_iff_suffix] at h
  obtain ⟨t, rfl⟩ := h
  rw [List.getLast?_append]
  cases hs : suf.getLast? with
  | none => exact absurd (by simpa using hs) hne
  | some d => simp

theorem endsWith_ne_of_last {s suf : List Char} {c d : Char}
    (hc : s.getLast? = some c) (hd : suf.getLast? = some d) (hne : c ≠ d) :
    endsWith s suf = false := by
  cases h : endsWith s suf with
  | false => rfl
  | true =>
    exfalso
    have hsuf : suf ≠ [] := by
      intro hE; subst hE; simp at hd
    have := endsWith_getLast? h hsuf
    rw [hc, hd] at this
    exact hne (Option.some.inj this)

theorem endsWith_nil_false {suf : List Char} (h : suf ≠ []) :
    endsWith [] suf = false := by
  cases hs : endsWith [] suf with
  | false => rfl
  | true =>
    exfalso
    unfold endsWith at hs
    rw [List.isSuffixOf_iff_suffix] at hs
    exact h (List.suffix_nil.mp hs)

/-! ### Structural lemmas on the shared stemming pipeline -/

/-- The `ець`/`ця`/`цю` stripping step shared by all three stemmers. -/
def stripTsia (w : List Char) : List Char :=
  if endsWith w ['е','ц','ь'] then dropSuffixN w 3
  else if endsWith w ['ц','я'] then dropSuffixN w 2
  else if endsWith w ['ц','ю'] then dropSuffixN w 2
  else w

/-- The `ого` stripping step shared by all three stemmers. -/
def stripOgo (w : List Char) : List Char :=
  if endsWith w ['о','г','о'] then dropSuffixN w 3 else w

/-- The `ому` stripping step shared by all three stemmers. -/
def stripOmu (w : List Char) : List Char :=
  if endsWith w ['о','м','у'] then dropSuffixN w 3 else w

/-- The first three suffix-stripping steps shared by all three stemmers. -/
def stripSuffixSteps (w : List Char) : List Char := stripOmu (stripOgo (stripTsia w))

theorem basePart_eq (w : List Char) :
    InvIdx.stem_word_part w = dropTrailingVowels (stripSuffixSteps w) := rfl

theorem stripTsia_pre (w : List Char) : stripTsia w <+: w := by
  unfold stripTsia dropSuffixN
  split
  · exact List.take_prefix _ _
  split
  · exact List.take_prefix _ _
  split
  · exact List.take_prefix _ _
  · exact List.prefix_refl _

theorem stripOgo_pre (w : List Char) : stripOgo w <+: w := by
  unfold stripOgo dropSuffixN
  split
  · exact List.take_prefix _ _
  · exact List.prefix_refl _

theorem stripOmu_pre (w : List Char) : stripOmu w <+: w := by
  unfold stripOmu dropSuffixN
  split
  · exact List.take_prefix _ _
  · exact List.prefix_refl _

theorem stripSuffixSteps_pre (w : List Char) : stripSuffixSteps w <+: w :=
  List.IsPrefix.trans (stripOmu_pre _)
    (List.IsPrefix.trans (stripOgo_pre _) (stripTsia_pre w))

theorem basePart_pre (w : List Char) : InvIdx.stem_word_part w <+: w := by
  rw [basePart_eq]
  exact List.IsPrefix.trans (dtv_pre _) (stripSuffixSteps_pre w)

theorem basePart_mem {w : List Char} {c : Char}
    (h : c ∈ InvIdx.stem_word_part w) : c ∈ w :=
  (basePart_pre w).sublist.subset h

theorem basePart_last (w : List Char) :
    ∀ c, (InvIdx.stem_word_part w).getLast? = some c → isVowelOrI c = false := by
  rw [basePart_eq]
  exact dtv_last _

/-- The result of the shared stemming pipeline does not end in any of the
suffixes whose last character is a vowel, so a second pass strips nothing. -/
theorem basePart_noSuffix (w : List Char) {suf : List Char} {d : Char}
    (hd : suf.getLast? = some d) (hdv : isVowelOrI d = true) :
    endsWith (InvIdx.stem_word_part w) suf = false := by
  cases hL : (InvIdx.stem_word_part w).getLast? with
  | none =>
    have hnil : InvIdx.stem_word_part w = [] := by simpa using hL
    rw [hnil]
    apply endsWith_nil_false
    intro hE; subst hE; simp at hd
  | some c =>
    apply endsWith_ne_of_last hL hd
    intro hEq
    subst hEq
    rw [basePart_last w c hL] at hdv
    exact Bool.false_ne_true hdv

theorem basePart_idem (w : List Char) :
    InvIdx.stem_word_part (InvIdx.stem_word_part w) = InvIdx.stem_word_part w := by
  have h1 := @basePart_noSuffix w ['е','ц','ь'] 'ь' rfl (by decide)
  have h2 := @basePart_noSuffix w ['ц','я'] 'я' rfl (by decide)
  have h3 := @basePart_noSuffix w ['ц','ю'] 'ю' rfl (by decide)
  have h4 := @basePart_noSuffix w ['о','г','о'] 'о' rfl (by decide)
  have h5 := @basePart_noSuffix w ['о','м','у'] 'у' rfl (by decide)
  have ht : stripTsia (InvIdx.stem_word_part w) = InvIdx.stem_word_part w := by
    unfold stripTsia
    rw [h1, h2, h3]
    simp
  have hstrip : stripSuffixSteps (InvIdx.stem_word_part w) = InvIdx.stem_word_part w := by
    unfold stripSuffixSteps
    rw [ht]
    unfold stripOgo stripOmu
    rw [h4]
    simp only [Bool.false_eq_true, if_false]
    rw [h5]
    simp
  conv_lhs => rw [basePart_eq]
  rw [hstrip]
  exact dtv_noop _ (basePart_last w)

theorem stemmerPart_cases (w : List Char) :
    Stemmer.stem_word_part w = InvIdx.stem_word_part w ∨
      Stemmer.stem_word_part w = ['ф','е','д'] := by
  rw [stemmer_part_eq_fedFix]
  unfold fedFix
  split
  · exact Or.inr rfl
  · exact Or.inl rfl

theorem stemmerPart_idem (w : List Char) :
    Stemmer.stem_word_part (Stemmer.stem_word_part w) = Stemmer.stem_word_part w := by
  rw [stemmer_part_eq_fedFix w]
  cases hc : fedCond (InvIdx.stem_word_part w) with
  | true =>
    rw [show fedFix (InvIdx.stem_word_part w) = ['ф','е','д'] by unfold fedFix; rw [hc]; rfl]
    decide
  | false =>
    rw [show fedFix (InvIdx.stem_word_part w) = InvIdx.stem_word_part w by
      unfold fedFix; rw [hc]; rfl]
    rw [stemmer_part_eq_fedFix, basePart_idem]
    unfold fedFix
    rw [hc]
    rfl

theorem stemmerPart_mem {w : List Char} {c : Char}
    (h : c ∈ Stemmer.stem_word_part w) : c ∈ w ∨ c ∈ (['ф','е','д'] : List Char) := by
  cases stemmerPart_cases w with
  | inl he => rw [he] at h; exact Or.inl (basePart_mem h)
  | inr he => rw [he] at h; exact Or.inr h

theorem stemmerPart_lower_fixed {w : List Char} (hw : ∀ c ∈ w, lowerChar c = c) :
    ∀ c ∈ Stemmer.stem_word_part w, lowerChar c = c := by
  intro c hc
  cases stemmerPart_mem hc with
  | inl h => exact hw c h
  | inr h =>
    have : ∀ c ∈ (['ф','е','д'] : List Char), lowerChar c = c := by decide
    exact this c h

theorem stemmerPart_no_dash {w : List Char} (hw : '-' ∉ w) :
    '-' ∉ Stemmer.stem_word_part w := by
  intro hmem
  cases stemmerPart_mem hmem with
  | inl h => exact hw h
  | inr h => simp at h

/-! ### Lemmas about `splitOn` and `intercalate` -/

theorem mem_splitOnP {α : Type} [DecidableEq α] (q : α → Bool) :
    ∀ (xs : List α), ∀ p ∈ xs.splitOnP q, ∀ c ∈ p, c ∈ xs ∧ q c = false := by
  intro xs
  induction xs with
  | nil =>
    intro p hp c hc
    rw [List.splitOnP_nil] at hp
    simp at hp
    subst hp
    simp at hc
  | cons x xs ih =>
    intro p hp c hc
    rw [List.splitOnP_cons] at hp
    by_cases hx : q x = true
    · rw [if_pos hx] at hp
      rcases List.mem_cons.mp hp with hE | hmem
      · subst hE; simp at hc
      · obtain ⟨hcxs, hqc⟩ := ih p hmem c hc
        exact ⟨List.mem_cons_of_mem x hcxs, hqc⟩
    · rw [if_neg hx] at hp
      obtain ⟨h, t, hsp⟩ : ∃ h t, xs.splitOnP q = h :: t := by
        cases hsp : xs.splitOnP q with
        | nil => exact absurd hsp (List.splitOnP_ne_nil q xs)
        | cons h t => exact ⟨h, t, rfl⟩
      rw [hsp] at hp
      simp only [List.modifyHead] at hp
      rcases List.mem_cons.mp hp with hE | hmem
      · subst hE
        rcases List.mem_cons.mp hc with hE | hmemh
        · subst hE
          exact ⟨List.mem_cons_self _ _, by simpa using hx⟩
        · obtain ⟨hcxs, hqc⟩ := ih h (by rw [hsp]; exact List.mem_cons_self _ _) c hmemh
          exact ⟨List.mem_cons_of_mem x hcxs, hqc⟩
      · obtain ⟨hcxs, hqc⟩ := ih p (by rw [hsp]; exact List.mem_cons_of_mem h hmem) c hc
        exact ⟨List.mem_cons_of_mem x hcxs, hqc⟩

theorem splitOnP_length_ge2 {α : Type} [DecidableEq α] (q : α → Bool) :
    ∀ (xs : List α), (∃ c ∈ xs, q c = true) → 2 ≤ (xs.splitOnP q).length := by
  intro xs
  induction xs with
  | nil => intro h; simp at h
  | cons x xs ih =>
    intro h
    rw [List.splitOnP_cons]
    by_cases hx : q x = true
    · rw [if_pos hx]
      have h1 : 1 ≤ (xs.splitOnP q).length :=
        List.length_pos.mpr (List.splitOnP_ne_nil q xs)
      simpa using Nat.succ_le_succ h1
    · rw [if_neg hx]
      obtain ⟨c, hc, hqc⟩ := h
      have hcxs : c ∈ xs := by
        rcases List.mem_cons.mp hc with hE | hm
        · subst hE; exact absurd hqc hx
        · exact hm
      have h2 := ih ⟨c, hcxs, hqc⟩
      obtain ⟨hh, t, hsp⟩ : ∃ h t, xs.splitOnP q = h :: t := by
        cases hsp : xs.splitOnP q with
        | nil => exact absurd hsp (List.splitOnP_ne_nil q xs)
        | cons h t => exact ⟨h, t, rfl⟩
      rw [hsp]
      simp only [List.modifyHead]
      rw [hsp] at h2
      simpa using h2

theorem sep_mem_intercalate {α : Type} (x : α) :
    ∀ (l : List (List α)), 2 ≤ l.length → x ∈ [x].intercalate l := by
  intro l
  match l with
  | [] => intro h; simp at h
  | [p] => intro h; simp at h
  | p :: q :: ps =>
    intro _
    unfold List.intercalate
    rw [List.intersperse_cons_cons]
    rw [List.join_cons, List.join_cons]
    refine List.mem_append_right _ (List.mem_append_left _ ?_)
    simp

theorem mem_intercalate_cases {α : Type} (x : α) :
    ∀ (l : List (List α)) (c : α), c ∈ [x].intercalate l →
      c = x ∨ ∃ p ∈ l, c ∈ p := by
  intro l
  induction l with
  | nil => intro c hc; simp [List.intercalate] at hc
  | cons p ps ih =>
    intro c hc
    cases ps with
    | nil =>
      simp [List.intercalate] at hc
      exact Or.inr ⟨p, by simp, hc⟩
    | cons q qs =>
      unfold List.intercalate at hc
      rw [List.intersperse_cons_cons, List.join_cons, List.join_cons] at hc
      rcases List.mem_append.mp hc with hp | hrest
      · exact Or.inr ⟨p, List.mem_cons_self _ _, hp⟩
      rcases List.mem_append.mp hrest with hx | hjoin
      · exact Or.inl (by simpa using hx)
      · rcases ih c (by unfold List.intercalate; exact hjoin) with hE | ⟨r, hr, hcr⟩
        · exact Or.inl hE
        · exact Or.inr ⟨r, List.mem_cons_of_mem p hr, hcr⟩

theorem splitOn_eq_splitOnP {α : Type} [DecidableEq α] (a : α) (xs : List α) :
    xs.splitOn a = xs.splitOnP (· == a) := rfl

/-! ### Idempotence of the C1 stemmer -/

theorem contains_iff_mem {l : List Char} {a : Char} : l.contains a = true ↔ a ∈ l :=
  List.elem_iff

theorem stem_word_unfold (w : List Char) : Stemmer.stem_word w =
    if (toLower w).contains '-' = true
    then List.intercalate ['-'] (((toLower w).splitOn '-').map Stemmer.stem_word_part)
    else Stemmer.stem_word_part (toLower w) := rfl

theorem lowerChar_eq_dash {d : Char} (h : lowerChar d = '-') : d = '-' := by
  by_cases hk : lowerPairs.lookup d = none
  · unfold lowerChar at h
    rw [hk] at h
    simpa using h
  · obtain ⟨v, hv⟩ := Option.ne_none_iff_exists'.mp hk
    exfalso
    have hlv : lowerChar d = v := by unfold lowerChar; rw [hv]; rfl
    rw [h] at hlv
    rw [← hlv] at hv
    have := lookup_mem_snd hv
    revert this
    decide

theorem mem_dash_toLower (w : List Char) : '-' ∈ toLower w ↔ '-' ∈ w := by
  constructor
  · intro h
    obtain ⟨d, hd, hld⟩ := List.mem_map.mp h
    rwa [← lowerChar_eq_dash hld]
  · intro h
    exact List.mem_map.mpr ⟨'-', h, by decide⟩

theorem contains_dash_toLower (w : List Char) :
    (toLower w).contains '-' = w.contains '-' := by
  cases h : w.contains '-' with
  | true =>
    exact contains_iff_mem.mpr ((mem_dash_toLower w).mpr (contains_iff_mem.mp h))
  | false =>
    cases h2 : (toLower w).contains '-' with
    | false => rfl
    | true =>
      exfalso
      have := contains_iff_mem.mpr ((mem_dash_toLower w).mp (contains_iff_mem.mp h2))
      rw [h] at this
      exact Bool.false_ne_true this

theorem stemWord_lower_fixed (w : List Char) :
    ∀ c ∈ Stemmer.stem_word w, lowerChar c = c := by
  intro c hc
  rw [stem_word_unfold] at hc
  by_cases hd : (toLower w).contains '-' = true
  · rw [if_pos hd] at hc
    rcases mem_intercalate_cases '-' _ c hc with hE | ⟨p, hp, hcp⟩
    · subst hE; decide
    · obtain ⟨piece, hpiece, rfl⟩ := List.mem_map.mp hp
      apply stemmerPart_lower_fixed _ c hcp
      intro d hdp
      rw [splitOn_eq_splitOnP] at hpiece
      have := (mem_splitOnP _ (toLower w) piece hpiece d hdp).1
      exact toLower_fixed w d this
  · rw [if_neg hd] at hc
    exact stemmerPart_lower_fixed (toLower_fixed w) c hc

theorem stemmer_stem_word_idem (w : List Char) :
    Stemmer.stem_word (Stemmer.stem_word w) = Stemmer.stem_word w := by
  by_cases hd : (toLower w).contains '-' = true
  · -- hyphenated case
    obtain ⟨pieces, hpieces⟩ : ∃ l, (toLower w).splitOn '-' = l := ⟨_, rfl⟩
    obtain ⟨parts, hparts⟩ : ∃ l, pieces.map Stemmer.stem_word_part = l := ⟨_, rfl⟩
    have hres : Stemmer.stem_word w = List.intercalate ['-'] parts := by
      rw [stem_word_unfold, if_pos hd, hpieces, hparts]
    have hplen : 2 ≤ pieces.length := by
      rw [← hpieces, splitOn_eq_splitOnP]
      apply splitOnP_length_ge2
      exact ⟨'-', contains_iff_mem.mp hd, by simp⟩
    have hpartslen : 2 ≤ parts.length := by
      rw [← hparts, List.length_map]; exact hplen
    have hpieces_nodash : ∀ p ∈ pieces, '-' ∉ p := by
      intro p hp hmem
      rw [← hpieces, splitOn_eq_splitOnP] at hp
      have := (mem_splitOnP _ (toLower w) p hp '-' hmem).2
      simp at this
    have hparts_nodash : ∀ p ∈ parts, '-' ∉ p := by
      intro p hp
      rw [← hparts] at hp
      obtain ⟨piece, hpiece, rfl⟩ := List.mem_map.mp hp
      exact stemmerPart_no_dash (hpieces_nodash piece hpiece)
    have hsl : toLower (List.intercalate ['-'] parts) = List.intercalate ['-'] parts := by
      apply toLower_eq_self
      intro c hc
      apply stemWord_lower_fixed w c
      rw [hres]
      exact hc
    have hsd : (List.intercalate ['-'] parts).contains '-' = true :=
      contains_iff_mem.mpr (sep_mem_intercalate '-' parts hpartslen)
    have hsplit : (List.intercalate ['-'] parts).splitOn '-' = parts :=
      List.splitOn_intercalate parts '-' hparts_nodash
        (by intro hE; rw [hE] at hpartslen; simp at hpartslen)
    have hmap : List.map Stemmer.stem_word_part parts = parts := by
      rw [← hparts, List.map_map]
      simp only [Function.comp_def]
      exact List.map_congr_left (fun p _ => stemmerPart_idem p)
    rw [hres, stem_word_unfold, hsl, hsd]
    simp only [if_true]
    rw [hsplit, hmap]
  · -- no hyphen
    rw [Bool.not_eq_true] at hd
    have hres : Stemmer.stem_word w = Stemmer.stem_word_part (toLower w) := by
      rw [stem_word_unfold, hd]
      simp
    set r := Stemmer.stem_word_part (toLower w) with hr
    have hrl : toLower r = r := by
      apply toLower_eq_self
      exact stemmerPart_lower_fixed (toLower_fixed w)
    have hrd : (toLower r).contains '-' = false := by
      rw [hrl]
      cases hc : r.contains '-' with
      | false => rfl
      | true =>
        exfalso
        apply @stemmerPart_no_dash (toLower w) _ (contains_iff_mem.mp hc)
        intro hmem
        have := contains_iff_mem.mpr hmem
        rw [hd] at this
        exact Bool.false_ne_true this
    rw [hres, stem_word_unfold, hrd]
    simp only [Bool.false_eq_true, if_false]
    rw [hrl]
    exact stemmerPart_idem (toLower w)

/-! ### Claim theorems about the stemmers (C3, C7) -/

/-- C3 counterexample: the claim that the indexing-time stemmer
(`InvertedIndex::stem_word`), the query-time stemmer
(`SearchEngine::stem_word`) and the C1 stemmer (`stemmer.rs`) agree on
every token fails on the token `федір`: the C1 stemmer applies rule 4 and
returns `фед`, while the two index/search copies (which lack rule 4)
return `федір`. -/
theorem claim_C3_counterexample :
    InvIdx.stem_word ("федір".toList) ≠ Stemmer.stem_word ("федір".toList) := by
  decide

/-- C3 (amended): the stemming function used at indexing time
(`InvertedIndex::stem_word`) and the one used at query time
(`SearchEngine::stem_word`) return the same stem for every token; the C1
stemmer `stem_word` differs from them exactly by additionally applying
rule 4's `фед` replacement to each hyphen-part, so on `федір` it returns
`фед` while the other two return `федір`. -/
theorem claim_C3_amended :
    (∀ w, InvIdx.stem_word w = SearchEng.stem_word w) ∧
    (∀ w, Stemmer.stem_word_part w = fedFix (InvIdx.stem_word_part w)) ∧
    Stemmer.stem_word ("федір".toList) = "фед".toList ∧
    InvIdx.stem_word ("федір".toList) = "федір".toList ∧
    SearchEng.stem_word ("федір".toList) = "федір".toList :=
  ⟨fun _ => rfl, fun _ => rfl, by decide, by decide, by decide⟩

/-- C7: the C1 stemmer `stem_word` from `src/stemmer.rs` is idempotent:
`stem_word (stem_word w) = stem_word w` for every word, including
hyphenated words (which are split on `-`, stemmed per part and
rejoined). -/
theorem claim_C7_stemmer_idempotent (w : List Char) :
    Stemmer.stem_word (Stemmer.stem_word w) = Stemmer.stem_word w :=
  stemmer_stem_word_idem w

/-! ### Generic container helpers

Rust `HashMap` is modelled as an association list with insert-replace
semantics (new keys appended), `HashSet` as a duplicate-free list with
insert-if-absent semantics; iteration order of the model is the
insertion order. -/

/-- Association-list lookup (model of `HashMap::get`). -/
def lookupA {α β : Type} [DecidableEq α] : List (α × β) → α → Option β
  | [], _ => none
  | (k, v) :: rest, a => if k = a then some v else lookupA rest a

/-- Association-list insert-replace (model of `HashMap::insert`). -/
def insertA {α β : Type} [DecidableEq α] : List (α × β) → α → β → List (α × β)
  | [], k, v => [(k, v)]
  | (k', v') :: rest, k, v =>
    if k' = k then (k, v) :: rest else (k', v') :: insertA rest k v

/-- Association-list removal (model of `HashMap::remove`). -/
def removeA {α β : Type} [DecidableEq α] (l : List (α × β)) (k : α) : List (α × β) :=
  l.filter (fun p => decide (p.1 ≠ k))

/-- Set insertion (model of `HashSet::insert`). -/
def insertS (s : List Nat) (x : Nat) : List Nat := if x ∈ s then s else s ++ [x]

/-- Collect a list of numbers into a set (model of collecting into a
`HashSet`), also the model of the push-if-absent union loops of the
source. -/
def unionS (s : List Nat) (more : List Nat) : List Nat := more.foldl insertS s

/-- Stable insertion of `x` into a list sorted by `key` (after equal keys). -/
def insertByKey {α : Type} (key : α → Nat) (x : α) : List α → List α
  | [] => [x]
  | y :: ys => if key y ≤ key x then y :: insertByKey key x ys else x :: y :: ys

/-- Stable sort by a `Nat` key (model of Rust `sort_by_key`). -/
def sortByKey {α : Type} (key : α → Nat) (l : List α) : List α :=
  l.foldl (fun acc x => insertByKey key x acc) []

/-! ### Word extraction (`InvertedIndex::extract_words`) -/

/-- UTF-8 byte length of a string (Rust `str::len`). -/
def utf8Len (s : List Char) : Nat := (s.map Char.utf8Size).sum

/-- Character class of the word regex `[\p{L}\p{N}']+`, modelled for the
alphabets this program manipulates: ASCII letters and digits, the Cyrillic
block U+0400..U+04FF, and the apostrophe. -/
def isWordChar (c : Char) : Bool :=
  c.isAlpha || c.isDigit || c == aposChar ||
    (decide (0x400 ≤ c.toNat) && decide (c.toNat ≤ 0x4FF))

/-- Maximal runs of word characters (model of `WORD_REGEX.find_iter`). -/
def tokenizeAux : List Char → List Char → List (List Char)
  | [], acc => if acc.isEmpty then [] else [acc.reverse]
  | c :: cs, acc =>
    if isWordChar c then tokenizeAux cs (c :: acc)
    else if acc.isEmpty then tokenizeAux cs []
    else acc.reverse :: tokenizeAux cs []

/-- All matches of the word regex in a text. -/
def wordRuns (text : List Char) : List (List Char) := tokenizeAux text []

/-- `InvertedIndex::extract_words`: find word runs, strip apostrophes, stem
with `InvertedIndex::stem_word`, and keep only words of byte length ≥ 2. -/
def extract_words (text : List Char) : List (List Char) :=
  ((wordRuns text).map
      (fun m => InvIdx.stem_word (m.filter (fun c => !(c == aposChar))))).filter
    (fun w => !w.isEmpty && decide (2 ≤ utf8Len w))

/-! ### Data model (`document_record.rs`, `inverted_index.rs`) -/

/-- `DocumentRecord` from `src/document_record.rs`. -/
structure DocumentRecord where
  file_path : List Char
  file_name : List Char
  file_size : Nat
  last_modified : Nat
  created : Nat
  content : List (List Char)
  word_count : Nat
  paragraph_count : Nat
  deriving DecidableEq

/-- `DocumentIndex` from `src/document_record.rs`. -/
structure DocumentIndex where
  documents : List DocumentRecord
  total_documents : Nat
  total_words : Nat
  indexed_at : Nat
  deriving DecidableEq

/-- `DocPosition` from `src/inverted_index.rs`. -/
structure DocPosition where
  doc_index : Nat
  paragraph_positions : List Nat
  deriving DecidableEq

/-- `InvertedIndex` from `src/inverted_index.rs`; the `HashMap` is an
association list (see above). -/
structure InvertedIndex where
  word_to_docs : List (List Char × List DocPosition)
  total_documents : Nat
  deriving DecidableEq

/-! ### Inverted-index mutation (`inverted_index.rs`) -/

namespace InvIdx

/-- Insert one `(doc_idx, para_idx)` occurrence into a posting list: find
the `DocPosition` for `doc_idx` and add `para_idx` if absent, else append
a fresh `DocPosition` (the `entry`-mutation in
`add_document_to_index_with_count`).  Returns the new posting and whether
a pair was newly inserted. -/
def addPos (doc_idx para_idx : Nat) : List DocPosition → List DocPosition × Bool
  | [] => ([⟨doc_idx, [para_idx]⟩], true)
  | dp :: rest =>
    if dp.doc_index = doc_idx then
      if para_idx ∈ dp.paragraph_positions then (dp :: rest, false)
      else (⟨dp.doc_index, dp.paragraph_positions ++ [para_idx]⟩ :: rest, true)
    else
      let (r, b) := addPos doc_idx para_idx rest
      (dp :: r, b)

/-- The posting map together with the running count of inserted pairs. -/
def addWord (doc_idx para_idx : Nat) (st : List (List Char × List DocPosition) × Nat)
    (word : List Char) : List (List Char × List DocPosition) × Nat :=
  let entry := (lookupA st.1 word).getD []
  let (entry', added) := addPos doc_idx para_idx entry
  (insertA st.1 word entry', if added then st.2 + 1 else st.2)

/-- `InvertedIndex::add_document_to_index_with_count`. -/
def add_document_to_index_with_count (m : List (List Char × List DocPosition))
    (doc_idx : Nat) (document : DocumentRecord) :
    List (List Char × List DocPosition) × Nat :=
  document.content.enum.foldl
    (fun st pi =>
      (extract_words pi.2).foldl (fun st w => addWord doc_idx pi.1 st w) st)
    (m, 0)

/-- `InvertedIndex::remove_document_from_index_with_count`: drop the
`DocPosition` for `doc_idx` from every posting, drop postings that become
empty, and count the removed pairs. -/
def remove_document_from_index_with_count (m : List (List Char × List DocPosition))
    (doc_idx : Nat) : List (List Char × List DocPosition) × Nat :=
  let pruned := m.map (fun p => (p.1, p.2.filter (fun dp => decide (dp.doc_index ≠ doc_idx))))
  let removed := (m.map (fun p =>
      p.2.length - (p.2.filter (fun dp => decide (dp.doc_index ≠ doc_idx))).length)).sum
  (pruned.filter (fun p => !p.2.isEmpty), removed)

/-- `InvertedIndex::update_incremental`: remove every changed id, then
re-add it from the forward records, then refresh `total_documents`.  An
empty change list is an early return that touches nothing. -/
def update_incremental (inv : InvertedIndex) (document_index : DocumentIndex)
    (changed_doc_indices : List Nat) : InvertedIndex :=
  if changed_doc_indices.isEmpty then inv
  else
    let m1 := changed_doc_indices.foldl
      (fun m i => (remove_document_from_index_with_count m i).1) inv.word_to_docs
    let m2 := changed_doc_indices.foldl
      (fun m i =>
        match document_index.documents.get? i with
        | some doc => (add_document_to_index_with_count m i doc).1
        | none => m) m1
    { word_to_docs := m2, total_documents := document_index.documents.length }

/-- `InvertedIndex::build_incremental`. -/
def build_incremental (existing_index : Option InvertedIndex)
    (document_index : DocumentIndex) (new_or_changed_docs : List Nat) : InvertedIndex :=
  let inv := existing_index.getD ⟨[], 0⟩
  if new_or_changed_docs.isEmpty then
    { inv with total_documents := document_index.documents.length }
  else if inv.word_to_docs.isEmpty then
    let m := new_or_changed_docs.foldl
      (fun m i =>
        match document_index.documents.get? i with
        | some doc => (add_document_to_index_with_count m i doc).1
        | none => m) inv.word_to_docs
    { word_to_docs := m, total_documents := document_index.documents.length }
  else
    update_incremental inv document_index new_or_changed_docs

/-- `InvertedIndex::remove_deleted_documents_by_paths`: resolve each
deleted path to a doc id via the (already updated) forward index, and
remove those ids.  Paths no longer present resolve to nothing. -/
def remove_deleted_documents_by_paths (inv : InvertedIndex)
    (deleted_file_paths : List (List Char)) (document_index : DocumentIndex) :
    InvertedIndex :=
  if deleted_file_paths.isEmpty then inv
  else
    let deleted_indices := deleted_file_paths.foldl
      (fun acc p =>
        match document_index.documents.enum.find? (fun q => q.2.file_path = p) with
        | some q => acc ++ [q.1]
        | none => acc) []
    { inv with
      word_to_docs := deleted_indices.foldl
        (fun m i => (remove_document_from_index_with_count m i).1) inv.word_to_docs }

end InvIdx

/-! ### `InvertedIndex::search_fast` (`inverted_index.rs`) -/

/-- `SearchMode` from `src/search_engine.rs`. -/
inductive SearchMode where
  | Quick : SearchMode
  | Full : SearchMode
  | Remaining : SearchMode
  deriving DecidableEq

/-- `usize::MAX`, the initial minimum of the seed-word selection loop. -/
def usizeMax : Nat := 2 ^ 64 - 1

namespace InvIdx

/-- Posting filtered to the doc-id window `[s, e)`. -/
def windowFilter (dps : List DocPosition) (s e : Nat) : List DocPosition :=
  dps.filter (fun dp => decide (s ≤ dp.doc_index) && decide (dp.doc_index < e))

/-- Number of window-filtered postings of a word (`map_or(0, ...)` in the
sort key; `0` when the word is absent). -/
def filteredCount (m : List (List Char × List DocPosition)) (word : List Char)
    (s e : Nat) : Nat :=
  match lookupA m word with
  | none => 0
  | some dps => (windowFilter dps s e).length

/-- The seed-word selection loop of `search_fast`: walk the query words,
tracking the smallest window-filtered posting; `none` as soon as any word
is absent from the index. -/
def bestGo (m : List (List Char × List DocPosition)) (s e : Nat) :
    List (Nat × List Char) → Nat → Nat → Option Nat
  | [], _, best => some best
  | (idx, w) :: rest, minC, best =>
    match lookupA m w with
    | none => none
    | some dps =>
      let c := (windowFilter dps s e).length
      if c < minC then bestGo m s e rest c idx else bestGo m s e rest minC best

/-- Build the candidate map `doc_id → position set` from a filtered
posting (collect with insert-replace / position sets deduplicated). -/
def collectCands (dps : List DocPosition) : List (Nat × List Nat) :=
  dps.foldl (fun acc dp => insertA acc dp.doc_index (unionS [] dp.paragraph_positions)) []

/-- One `retain`-with-union step of the intersection loop. -/
def retainStep (cur : List (Nat × List Nat)) (cands : List (Nat × List Nat)) :
    List (Nat × List Nat) :=
  cands.filterMap (fun kv =>
    match lookupA cur kv.1 with
    | some cps => some (kv.1, unionS kv.2 cps)
    | none => none)

/-- The remaining-words intersection loop of `search_fast`; `none` models
the early `return Vec::new()` exits. -/
def intersectLoop (m : List (List Char × List DocPosition)) (s e : Nat) :
    List (Nat × List Nat) → List (List Char) → Option (List (Nat × List Nat))
  | cands, [] => some cands
  | cands, w :: ws =>
    match lookupA m w with
    | none => none
    | some dps =>
      if (retainStep (collectCands (windowFilter dps s e)) cands).isEmpty then none
      else intersectLoop m s e (retainStep (collectCands (windowFilter dps s e)) cands) ws

/-- The doc-id window `[start_index, end_index)` selected by the mode at
the top of `search_fast`. -/
def windowOf (mode : SearchMode) (total_docs : Nat) : Nat × Nat :=
  match mode with
  | SearchMode.Quick => (0, if total_docs > 170 then 170 else total_docs)
  | SearchMode.Remaining => ((if total_docs > 170 then 170 else 0), total_docs)
  | SearchMode.Full => (0, total_docs)

/-- The initial candidate map built from the seed word's filtered posting. -/
def seedCands (m : List (List Char × List DocPosition)) (word : List Char)
    (s e : Nat) : List (Nat × List Nat) :=
  match lookupA m word with
  | some dps => collectCands (windowFilter dps s e)
  | none => []

/-- The post-seed part of `search_fast`: build the candidate map from the
seed word's posting, run the intersection loop over the remaining words
(sorted by ascending filtered posting size), and sort the position sets
of the survivors. -/
def searchTail (m : List (List Char × List DocPosition)) (q : List (List Char))
    (s e best : Nat) : List (Nat × List Nat) :=
  if (seedCands m (q.getD best []) s e).isEmpty then []
  else
    match intersectLoop m s e (seedCands m (q.getD best []) s e)
        (sortByKey (fun w => filteredCount m w s e)
          ((q.enum.filter (fun p => decide (p.1 ≠ best))).map Prod.snd)) with
    | none => []
    | some final =>
      final.map (fun p => (p.1, List.insertionSort (fun a b => a ≤ b) p.2))

/-- Body of `search_fast` for a non-empty query and a fixed window. -/
def searchGo (m : List (List Char × List DocPosition)) (q : List (List Char))
    (s e : Nat) : List (Nat × List Nat) :=
  match bestGo m s e q.enum usizeMax 0 with
  | none => []
  | some best => searchTail m q s e best

/-- `InvertedIndex::search_fast`: select the doc-id window from the mode,
pick the rarest query word as seed, intersect the remaining words in
ascending posting-size order, and return `(doc_id, sorted positions)`
pairs. -/
def search_fast (inv : InvertedIndex) (query_words : List (List Char))
    (document_index : DocumentIndex) (mode : SearchMode) : List (Nat × List Nat) :=
  if query_words.isEmpty then []
  else
    searchGo inv.word_to_docs query_words
      (windowOf mode document_index.documents.length).1
      (windowOf mode document_index.documents.length).2

/-! ### `InvertedIndex::remove_duplicate_entries` (`inverted_index.rs`) -/

/-- Flush the run accumulator: skip empty position lists, sort the rest
(the two `sort_unstable` + push sites of the drain loop). -/
def flushRun (d : Nat) (ps : List Nat) : List DocPosition :=
  if ps.isEmpty then [] else [⟨d, List.insertionSort (fun a b => a ≤ b) ps⟩]

/-- The drain loop of `remove_duplicate_entries`: group a doc-index-sorted
posting into runs, unioning the paragraph positions of equal doc indices. -/
def mergeRuns : Option (Nat × List Nat) → List DocPosition → List DocPosition
  | none, [] => []
  | some cur, [] => flushRun cur.1 cur.2
  | none, dp :: rest => mergeRuns (some (dp.doc_index, dp.paragraph_positions)) rest
  | some cur, dp :: rest =>
    if dp.doc_index = cur.1 then
      mergeRuns (some (cur.1, unionS cur.2 dp.paragraph_positions)) rest
    else
      flushRun cur.1 cur.2 ++ mergeRuns (some (dp.doc_index, dp.paragraph_positions)) rest

/-- `InvertedIndex::remove_duplicate_entries`: per posting, sort by doc
index (stable) and merge duplicate doc entries, dropping entries whose
merged position list is empty. -/
def remove_duplicate_entries (inv : InvertedIndex) : InvertedIndex :=
  { inv with
    word_to_docs := inv.word_to_docs.map (fun p =>
      (p.1, mergeRuns none (sortByKey (fun dp => dp.doc_index) p.2))) }

end InvIdx

/-! ### Lemmas about the container helpers -/

theorem mem_insertS {s : List Nat} {x a : Nat} :
    a ∈ insertS s x ↔ a ∈ s ∨ a = x := by
  unfold insertS
  split
  · constructor
    · exact Or.inl
    · rintro (h | rfl)
      · exact h
      · assumption
  · simp

theorem insertS_nodup {s : List Nat} {x : Nat} (h : s.Nodup) :
    (insertS s x).Nodup := by
  unfold insertS
  split
  · exact h
  · next hx => simp [List.nodup_append, h, hx]

theorem mem_unionS : ∀ (l s : List Nat) (a : Nat),
    a ∈ unionS s l ↔ a ∈ s ∨ a ∈ l := by
  intro l
  induction l with
  | nil => intro s a; simp [unionS]
  | cons x xs ih =>
    intro s a
    show a ∈ unionS (insertS s x) xs ↔ _
    rw [ih (insertS s x) a, mem_insertS]
    constructor
    · rintro ((h | rfl) | h)
      · exact Or.inl h
      · exact Or.inr (List.mem_cons_self _ _)
      · exact Or.inr (List.mem_cons_of_mem x h)
    · rintro (h | h)
      · exact Or.inl (Or.inl h)
      · rcases List.mem_cons.mp h with rfl | h2
        · exact Or.inl (Or.inr rfl)
        · exact Or.inr h2

theorem unionS_nodup {l : List Nat} : ∀ {s : List Nat}, s.Nodup → (unionS s l).Nodup := by
  induction l with
  | nil => intro s h; exact h
  | cons x xs ih =>
    intro s h
    exact ih (insertS_nodup h)

theorem mem_insertA {α β : Type} [DecidableEq α] {k : α} {v : β} :
    ∀ {l : List (α × β)} {kv : α × β}, kv ∈ insertA l k v → kv = (k, v) ∨ kv ∈ l := by
  intro l
  induction l with
  | nil => intro kv h; simp [insertA] at h; exact Or.inl h
  | cons p ps ih =>
    obtain ⟨k', v'⟩ := p
    intro kv h
    unfold insertA at h
    split at h
    · rcases List.mem_cons.mp h with hE | hm
      · exact Or.inl hE
      · exact Or.inr (List.mem_cons_of_mem _ hm)
    · rcases List.mem_cons.mp h with hE | hm
      · exact Or.inr (hE ▸ List.mem_cons_self _ _)
      · rcases ih hm with hE | hm2
        · exact Or.inl hE
        · exact Or.inr (List.mem_cons_of_mem _ hm2)

theorem insertA_keys {α β : Type} [DecidableEq α] (k : α) (v : β) :
    ∀ (l : List (α × β)), (insertA l k v).map Prod.fst =
      if k ∈ l.map Prod.fst then l.map Prod.fst else l.map Prod.fst ++ [k] := by
  intro l
  induction l with
  | nil => simp [insertA]
  | cons p ps ih =>
    obtain ⟨k', v'⟩ := p
    by_cases hk : k' = k
    · subst hk
      rw [show insertA ((k', v') :: ps) k' v = (k', v) :: ps by unfold insertA; simp]
      simp
    · rw [show insertA ((k', v') :: ps) k v = (k', v') :: insertA ps k v by
        rw [show insertA ((k', v') :: ps) k v
            = if k' = k then (k, v) :: ps else (k', v') :: insertA ps k v from rfl]
        rw [if_neg hk]]
      by_cases hmem : k ∈ ps.map Prod.fst
      · simp only [List.map_cons, ih, if_pos hmem]
        rw [if_pos (List.mem_cons_of_mem _ hmem)]
      · simp only [List.map_cons, ih, if_neg hmem]
        rw [if_neg (by
          intro hc
          rcases List.mem_cons.mp hc with hE | hm
          · exact hk hE.symm
          · exact hmem hm)]
        simp

theorem insertA_keys_nodup {α β : Type} [DecidableEq α] {l : List (α × β)} {k : α} {v : β}
    (h : (l.map Prod.fst).Nodup) : ((insertA l k v).map Prod.fst).Nodup := by
  rw [insertA_keys]
  split
  · exact h
  · next hk => simp [List.nodup_append, h, hk]

/-! ### Lemmas about `collectCands`, `retainStep`, `intersectLoop` -/

theorem collect_go_mem :
    ∀ (dps : List DocPosition) (acc : List (Nat × List Nat)) (kv : Nat × List Nat),
      kv ∈ dps.foldl
          (fun acc dp => insertA acc dp.doc_index (unionS [] dp.paragraph_positions)) acc →
      kv ∈ acc ∨ ∃ dp ∈ dps, kv = (dp.doc_index, unionS [] dp.paragraph_positions) := by
  intro dps
  induction dps with
  | nil => intro acc kv h; exact Or.inl h
  | cons dp rest ih =>
    intro acc kv h
    simp only [List.foldl_cons] at h
    rcases ih _ kv h with hacc | ⟨dp', hdp', hE⟩
    · rcases mem_insertA hacc with hE | hm
      · exact Or.inr ⟨dp, List.mem_cons_self _ _, hE⟩
      · exact Or.inl hm
    · exact Or.inr ⟨dp', List.mem_cons_of_mem _ hdp', hE⟩

theorem collect_go_keys_nodup :
    ∀ (dps : List DocPosition) (acc : List (Nat × List Nat)),
      (acc.map Prod.fst).Nodup →
      ((dps.foldl
          (fun acc dp => insertA acc dp.doc_index (unionS [] dp.paragraph_positions))
          acc).map Prod.fst).Nodup := by
  intro dps
  induction dps with
  | nil => intro acc h; exact h
  | cons dp rest ih =>
    intro acc h
    simp only [List.foldl_cons]
    exact ih _ (insertA_keys_nodup h)

theorem collectCands_mem {dps : List DocPosition} {kv : Nat × List Nat}
    (h : kv ∈ InvIdx.collectCands dps) :
    ∃ dp ∈ dps, kv = (dp.doc_index, unionS [] dp.paragraph_positions) := by
  rcases collect_go_mem dps [] kv h with hacc | hE
  · simp at hacc
  · exact hE

theorem collectCands_keys_nodup (dps : List DocPosition) :
    ((InvIdx.collectCands dps).map Prod.fst).Nodup :=
  collect_go_keys_nodup dps [] (by simp)

theorem retainStep_keys_sublist (cur : List (Nat × List Nat)) :
    ∀ cands, ((InvIdx.retainStep cur cands).map Prod.fst).Sublist (cands.map Prod.fst) := by
  intro cands
  induction cands with
  | nil => simp [InvIdx.retainStep]
  | cons kv rest ih =>
    unfold InvIdx.retainStep
    rw [List.filterMap_cons]
    cases h : lookupA cur kv.1 with
    | none =>
      simp only [List.map_cons]
      exact (ih :
        ((InvIdx.retainStep cur rest).map Prod.fst).Sublist (rest.map Prod.fst)).cons _
    | some cps =>
      simp only [List.map_cons]
      exact (ih :
        ((InvIdx.retainStep cur rest).map Prod.fst).Sublist (rest.map Prod.fst)).cons₂ _

theorem mem_retainStep {cur cands : List (Nat × List Nat)} {kv : Nat × List Nat}
    (h : kv ∈ InvIdx.retainStep cur cands) :
    ∃ kv0 ∈ cands, ∃ cps, kv = (kv0.1, unionS kv0.2 cps) := by
  induction cands with
  | nil => simp [InvIdx.retainStep] at h
  | cons kv1 rest ih =>
    unfold InvIdx.retainStep at h
    rw [List.filterMap_cons] at h
    cases hl : lookupA cur kv1.1 with
    | none =>
      rw [hl] at h
      rcases ih h with ⟨kv0, hkv0, hcps⟩
      exact ⟨kv0, List.mem_cons_of_mem _ hkv0, hcps⟩
    | some cps =>
      rw [hl] at h
      rcases List.mem_cons.mp h with hE | hm
      · exact ⟨kv1, List.mem_cons_self _ _, cps, hE⟩
      · rcases ih hm with ⟨kv0, hkv0, hcps⟩
        exact ⟨kv0, List.mem_cons_of_mem _ hkv0, hcps⟩

theorem intersectLoop_keys {m : List (List Char × List DocPosition)} {s e : Nat} :
    ∀ (ws : List (List Char)) (cands res : List (Nat × List Nat)),
      InvIdx.intersectLoop m s e cands ws = some res →
      (res.map Prod.fst).Sublist (cands.map Prod.fst) := by
  intro ws
  induction ws with
  | nil =>
    intro cands res h
    unfold InvIdx.intersectLoop at h
    cases h
    exact List.Sublist.refl _
  | cons w ws ih =>
    intro cands res h
    unfold InvIdx.intersectLoop at h
    cases hl : lookupA m w with
    | none => rw [hl] at h; cases h
    | some dps =>
      rw [hl] at h
      replace h : (if (InvIdx.retainStep
            (InvIdx.collectCands (InvIdx.windowFilter dps s e)) cands).isEmpty = true
          then none
          else InvIdx.intersectLoop m s e (InvIdx.retainStep
            (InvIdx.collectCands (InvIdx.windowFilter dps s e)) cands) ws) = some res := h
      by_cases hE : (InvIdx.retainStep
          (InvIdx.collectCands (InvIdx.windowFilter dps s e)) cands).isEmpty = true
      · rw [if_pos hE] at h; cases h
      · rw [if_neg hE] at h
        exact (ih _ res h).trans (retainStep_keys_sublist _ cands)

theorem intersectLoop_vals {m : List (List Char × List DocPosition)} {s e : Nat} :
    ∀ (ws : List (List Char)) (cands res : List (Nat × List Nat)),
      (∀ kv ∈ cands, kv.2.Nodup) →
      InvIdx.intersectLoop m s e cands ws = some res →
      ∀ kv ∈ res, kv.2.Nodup := by
  intro ws
  induction ws with
  | nil =>
    intro cands res hc h
    unfold InvIdx.intersectLoop at h
    cases h
    exact hc
  | cons w ws ih =>
    intro cands res hc h
    unfold InvIdx.intersectLoop at h
    cases hl : lookupA m w with
    | none => rw [hl] at h; cases h
    | some dps =>
      rw [hl] at h
      replace h : (if (InvIdx.retainStep
            (InvIdx.collectCands (InvIdx.windowFilter dps s e)) cands).isEmpty = true
          then none
          else InvIdx.intersectLoop m s e (InvIdx.retainStep
            (InvIdx.collectCands (InvIdx.windowFilter dps s e)) cands) ws) = some res := h
      by_cases hE : (InvIdx.retainStep
          (InvIdx.collectCands (InvIdx.windowFilter dps s e)) cands).isEmpty = true
      · rw [if_pos hE] at h; cases h
      · rw [if_neg hE] at h
        refine ih _ res ?_ h
        intro kv hkv
        rcases mem_retainStep hkv with ⟨kv0, hkv0, cps, rfl⟩
        exact unionS_nodup (hc kv0 hkv0)

/-! ### Well-formedness of `search_fast` results (claims C4, C9) -/

theorem mem_seedCands {m : List (List Char × List DocPosition)} {word : List Char}
    {s e : Nat} {kv : Nat × List Nat} (h : kv ∈ InvIdx.seedCands m word s e) :
    (s ≤ kv.1 ∧ kv.1 < e) ∧ kv.2.Nodup := by
  unfold InvIdx.seedCands at h
  cases hl : lookupA m word with
  | none => rw [hl] at h; simp at h
  | some dps =>
    rw [hl] at h
    replace h : kv ∈ InvIdx.collectCands (InvIdx.windowFilter dps s e) := h
    rcases collectCands_mem h with ⟨dp, hdp, rfl⟩
    unfold InvIdx.windowFilter at hdp
    rw [List.mem_filter] at hdp
    refine ⟨?_, unionS_nodup (by simp)⟩
    have := hdp.2
    simp at this
    exact this

theorem seedCands_keys_nodup (m : List (List Char × List DocPosition))
    (word : List Char) (s e : Nat) :
    ((InvIdx.seedCands m word s e).map Prod.fst).Nodup := by
  unfold InvIdx.seedCands
  cases lookupA m word with
  | none => simp
  | some dps => exact collectCands_keys_nodup _

theorem pairwise_lt_of_sorted_nodup {l : List Nat}
    (hs : List.Pairwise (fun a b => a ≤ b) l) (hn : l.Nodup) :
    List.Pairwise (fun a b => a < b) l :=
  (hs.and hn).imp (fun h => lt_of_le_of_ne h.1 h.2)

theorem searchTail_window {m : List (List Char × List DocPosition)}
    {q : List (List Char)} {s e best : Nat} {kv : Nat × List Nat}
    (h : kv ∈ InvIdx.searchTail m q s e best) : s ≤ kv.1 ∧ kv.1 < e := by
  unfold InvIdx.searchTail at h
  by_cases hE : (InvIdx.seedCands m (q.getD best []) s e).isEmpty = true
  · rw [if_pos hE] at h; simp at h
  · rw [if_neg hE] at h
    cases hI : InvIdx.intersectLoop m s e (InvIdx.seedCands m (q.getD best []) s e)
        (sortByKey (fun w => InvIdx.filteredCount m w s e)
          ((q.enum.filter (fun p => decide (p.1 ≠ best))).map Prod.snd)) with
    | none => rw [hI] at h; simp at h
    | some final =>
      rw [hI] at h
      replace h : kv ∈ final.map
          (fun p => (p.1, List.insertionSort (fun a b => a ≤ b) p.2)) := h
      rcases List.mem_map.mp h with ⟨kv0, hkv0, rfl⟩
      have hkey : kv0.1 ∈ final.map Prod.fst := List.mem_map_of_mem _ hkv0
      have hsub := (intersectLoop_keys _ _ final hI).subset hkey
      rcases List.mem_map.mp hsub with ⟨kv1, hkv1, hk⟩
      have := (mem_seedCands hkv1).1
      rw [hk] at this
      exact this

theorem searchGo_window {m : List (List Char × List DocPosition)}
    {q : List (List Char)} {s e : Nat} {kv : Nat × List Nat}
    (h : kv ∈ InvIdx.searchGo m q s e) : s ≤ kv.1 ∧ kv.1 < e := by
  unfold InvIdx.searchGo at h
  cases hb : InvIdx.bestGo m s e q.enum usizeMax 0 with
  | none => rw [hb] at h; simp at h
  | some best =>
    rw [hb] at h
    exact searchTail_window (h : kv ∈ InvIdx.searchTail m q s e best)

theorem searchTail_wellformed (m : List (List Char × List DocPosition))
    (q : List (List Char)) (s e best : Nat) :
    ((InvIdx.searchTail m q s e best).map Prod.fst).Nodup ∧
      ∀ kv ∈ InvIdx.searchTail m q s e best,
        List.Pairwise (fun a b => a < b) kv.2 := by
  unfold InvIdx.searchTail
  by_cases hE : (InvIdx.seedCands m (q.getD best []) s e).isEmpty = true
  · rw [if_pos hE]; simp
  · rw [if_neg hE]
    cases hI : InvIdx.intersectLoop m s e (InvIdx.seedCands m (q.getD best []) s e)
        (sortByKey (fun w => InvIdx.filteredCount m w s e)
          ((q.enum.filter (fun p => decide (p.1 ≠ best))).map Prod.snd)) with
    | none => simp
    | some final =>
      constructor
      · rw [List.map_map]
        have heq : (Prod.fst ∘ fun p : Nat × List Nat =>
            (p.1, List.insertionSort (fun a b => a ≤ b) p.2)) = Prod.fst := by
          funext p; rfl
        rw [heq]
        exact (intersectLoop_keys _ _ final hI).nodup
          (seedCands_keys_nodup m (q.getD best []) s e)
      · intro kv hkv
        rcases List.mem_map.mp hkv with ⟨kv0, hkv0, rfl⟩
        have hvn : kv0.2.Nodup :=
          intersectLoop_vals _ _ final (fun kv1 h1 => (mem_seedCands h1).2) hI kv0 hkv0
        have hsorted : List.Pairwise (fun a b => a ≤ b)
            (List.insertionSort (fun a b => a ≤ b) kv0.2) :=
          List.sorted_insertionSort _ _
        have hperm := List.perm_insertionSort (fun a b => a ≤ b) kv0.2
        exact pairwise_lt_of_sorted_nodup hsorted (hperm.nodup_iff.mpr hvn)

theorem searchGo_wellformed (m : List (List Char × List DocPosition))
    (q : List (List Char)) (s e : Nat) :
    ((InvIdx.searchGo m q s e).map Prod.fst).Nodup ∧
      ∀ kv ∈ InvIdx.searchGo m q s e, List.Pairwise (fun a b => a < b) kv.2 := by
  unfold InvIdx.searchGo
  cases hb : InvIdx.bestGo m s e q.enum usizeMax 0 with
  | none => simp
  | some best =>
    exact searchTail_wellformed m q s e best

/-! ### Concrete fixtures used by counterexamples and witnesses -/

/-- A one-document forward index (one paragraph `xx yy`). -/
def exampleDoc : DocumentRecord :=
  ⟨"a.docx".toList, "a.docx".toList, 10, 5, 5, ["xx yy".toList], 2, 1⟩

/-- Forward index holding only `exampleDoc`. -/
def exampleIndex1 : DocumentIndex := ⟨[exampleDoc], 1, 2, 0⟩

/-- Inverted index with the single stem `xx` in document 0. -/
def exampleInv1 : InvertedIndex := ⟨[("xx".toList, [⟨0, [0]⟩])], 1⟩

/-- A dirty inverted index: duplicate `DocPosition`s for doc 0 and
duplicated, unsorted position lists. -/
def exampleDirtyInv : InvertedIndex :=
  ⟨[("xx".toList, [⟨0, [1, 1, 0]⟩, ⟨0, [2]⟩])], 1⟩

/-! ### Claim theorems C4 and C9 -/

/-- C4 counterexample: the claim says that in Remaining mode with
`N ≤ 170` the window is `[min(170, N), N) = [N, N)` and the search
returns the empty list; but on a one-document index (`N = 1 ≤ 170`)
`search_fast` starts the Remaining window at `0`, considers document 0
and returns a non-empty result. -/
theorem claim_C4_counterexample :
    InvIdx.search_fast exampleInv1 ["xx".toList] exampleIndex1 SearchMode.Remaining
        = [(0, [0])] ∧
      exampleIndex1.documents.length ≤ 170 := by decide

/-- C4 (amended): `search_fast` restricts candidate doc ids to
`[0, min(170, N))` in Quick mode and `[0, N)` in Full mode; in Remaining
mode the window is `[170, N)` when `N > 170` but `[0, N)` (re-scanning
every document) when `N ≤ 170`. -/
theorem claim_C4_amended (inv : InvertedIndex) (q : List (List Char))
    (didx : DocumentIndex) (mode : SearchMode) (kv : Nat × List Nat)
    (h : kv ∈ InvIdx.search_fast inv q didx mode) :
    (mode = SearchMode.Quick → kv.1 < min 170 didx.documents.length) ∧
    (mode = SearchMode.Full → kv.1 < didx.documents.length) ∧
    (mode = SearchMode.Remaining →
      if 170 < didx.documents.length then 170 ≤ kv.1 ∧ kv.1 < didx.documents.length
      else kv.1 < didx.documents.length) := by
  unfold InvIdx.search_fast at h
  by_cases hq : q.isEmpty = true
  · rw [if_pos hq] at h; simp at h
  · rw [if_neg hq] at h
    have hw := searchGo_window h
    refine ⟨?_, ?_, ?_⟩ <;> intro hm <;> subst hm <;>
      by_cases h17 : 170 < didx.documents.length <;>
      simp [InvIdx.windowOf, h17] at hw ⊢ <;>
      omega

/-- C4 amended, witness: a concrete Full-mode search hit lies inside the
window `[0, N)`. -/
theorem claim_C4_amended_witness :
    (0, [0]) ∈ InvIdx.search_fast exampleInv1 ["xx".toList] exampleIndex1 SearchMode.Full
      ∧ (0 : Nat) < exampleIndex1.documents.length :=
  ⟨by decide,
    (claim_C4_amended exampleInv1 ["xx".toList] exampleIndex1 SearchMode.Full (0, [0])
      (by decide)).2.1 rfl⟩

/-- C9: whatever the stored inverted index looks like (duplicate
`DocPosition`s, unsorted or duplicated position lists included), every
`(doc_id, positions)` pair returned by `search_fast` has a strictly
increasing (hence duplicate-free) positions list, and no doc id occurs in
more than one returned pair. -/
theorem claim_C9 (inv : InvertedIndex) (q : List (List Char))
    (didx : DocumentIndex) (mode : SearchMode) :
    ((InvIdx.search_fast inv q didx mode).map Prod.fst).Nodup ∧
      ∀ kv ∈ InvIdx.search_fast inv q didx mode,
        List.Pairwise (fun a b => a < b) kv.2 := by
  unfold InvIdx.search_fast
  by_cases hq : q.isEmpty = true
  · rw [if_pos hq]; simp
  · rw [if_neg hq]
    exact searchGo_wellformed _ _ _ _

/-- C9 witness: on a dirty index with duplicated doc entries and
duplicated positions the returned pair has a strictly increasing
positions list, and the doc-id list is duplicate-free. -/
theorem claim_C9_witness :
    ((InvIdx.search_fast exampleDirtyInv ["xx".toList] exampleIndex1
        SearchMode.Full).map Prod.fst).Nodup ∧
      List.Pairwise (fun a b => a < b) ([2] : List Nat) :=
  ⟨(claim_C9 exampleDirtyInv ["xx".toList] exampleIndex1 SearchMode.Full).1,
    (claim_C9 exampleDirtyInv ["xx".toList] exampleIndex1 SearchMode.Full).2
      (0, [2]) (by decide)⟩

/-! ### Lemmas about `sortByKey`, `flushRun`, `mergeRuns` (claim C10) -/

theorem mem_insertByKey {α : Type} {key : α → Nat} {x a : α} :
    ∀ {l : List α}, a ∈ insertByKey key x l ↔ a = x ∨ a ∈ l := by
  intro l
  induction l with
  | nil => simp [insertByKey]
  | cons y ys ih =>
    unfold insertByKey
    split
    · rw [List.mem_cons, ih]
      constructor
      · rintro (rfl | h | h)
        · exact Or.inr (List.mem_cons_self _ _)
        · exact Or.inl h
        · exact Or.inr (List.mem_cons_of_mem _ h)
      · rintro (h | h)
        · exact Or.inr (Or.inl h)
        · rcases List.mem_cons.mp h with rfl | h2
          · exact Or.inl rfl
          · exact Or.inr (Or.inr h2)
    · simp

theorem insertByKey_pairwise {α : Type} {key : α → Nat} {x : α} :
    ∀ {l : List α}, List.Pairwise (fun p q => key p ≤ key q) l →
      List.Pairwise (fun p q => key p ≤ key q) (insertByKey key x l) := by
  intro l
  induction l with
  | nil => intro _; simp [insertByKey]
  | cons y ys ih =>
    intro h
    unfold insertByKey
    rcases List.pairwise_cons.mp h with ⟨hy, hys⟩
    split
    · next hxy =>
      refine List.pairwise_cons.mpr ⟨?_, ih hys⟩
      intro a ha
      rcases mem_insertByKey.mp ha with rfl | ha2
      · exact hxy
      · exact hy a ha2
    · next hxy =>
      refine List.pairwise_cons.mpr ⟨?_, h⟩
      intro a ha
      have hxyle : key x ≤ key y := Nat.le_of_not_le hxy
      rcases List.mem_cons.mp ha with rfl | ha2
      · exact hxyle
      · exact le_trans hxyle (hy a ha2)

theorem sortByKey_pairwise {α : Type} (key : α → Nat) (l : List α) :
    List.Pairwise (fun p q => key p ≤ key q) (sortByKey key l) := by
  suffices h : ∀ (l acc : List α), List.Pairwise (fun p q => key p ≤ key q) acc →
      List.Pairwise (fun p q => key p ≤ key q)
        (l.foldl (fun acc x => insertByKey key x acc) acc) by
    exact h l [] (by simp)
  intro l
  induction l with
  | nil => intro acc h; exact h
  | cons x xs ih =>
    intro acc h
    simp only [List.foldl_cons]
    exact ih _ (insertByKey_pairwise h)

theorem mem_sortByKey {α : Type} {key : α → Nat} {a : α} {l : List α} :
    a ∈ sortByKey key l ↔ a ∈ l := by
  suffices h : ∀ (l acc : List α),
      a ∈ l.foldl (fun acc x => insertByKey key x acc) acc ↔ a ∈ acc ∨ a ∈ l by
    rw [sortByKey, h l []]
    simp
  intro l
  induction l with
  | nil => intro acc; simp
  | cons x xs ih =>
    intro acc
    simp only [List.foldl_cons]
    rw [ih (insertByKey key x acc), mem_insertByKey]
    constructor
    · rintro ((rfl | h) | h)
      · exact Or.inr (List.mem_cons_self _ _)
      · exact Or.inl h
      · exact Or.inr (List.mem_cons_of_mem _ h)
    · rintro (h | h)
      · exact Or.inl (Or.inr h)
      · rcases List.mem_cons.mp h with rfl | h2
        · exact Or.inl (Or.inl rfl)
        · exact Or.inr h2

theorem flushRun_pairwise (d : Nat) (ps : List Nat) :
    List.Pairwise (fun a b : DocPosition => a.doc_index < b.doc_index)
      (InvIdx.flushRun d ps) := by
  unfold InvIdx.flushRun
  split <;> simp

theorem mem_flushRun {d : Nat} {ps : List Nat} {dp : DocPosition}
    (h : dp ∈ InvIdx.flushRun d ps) :
    dp.doc_index = d ∧ dp.paragraph_positions ≠ [] ∧
      List.Pairwise (fun a b => a ≤ b) dp.paragraph_positions ∧
      ∀ p, p ∈ dp.paragraph_positions ↔ p ∈ ps := by
  unfold InvIdx.flushRun at h
  split at h
  · simp at h
  · next hne =>
    rcases List.mem_singleton.mp h with rfl
    refine ⟨rfl, ?_, List.sorted_insertionSort _ _, ?_⟩
    · intro hE
      replace hE : List.insertionSort (fun a b => a ≤ b) ps = [] := hE
      have hlen := (List.perm_insertionSort (fun a b => a ≤ b) ps).length_eq
      rw [hE] at hlen
      simp at hlen
      have hps : ps = [] := List.length_eq_zero.mp hlen.symm
      rw [hps] at hne
      simp at hne
    · intro p
      exact (List.perm_insertionSort (fun a b => a ≤ b) ps).mem_iff

theorem flushRun_occ {d : Nat} {ps : List Nat} {dd p : Nat} :
    (∃ dp ∈ InvIdx.flushRun d ps, dp.doc_index = dd ∧ p ∈ dp.paragraph_positions) ↔
      (dd = d ∧ p ∈ ps) := by
  unfold InvIdx.flushRun
  split
  · next hE =>
    have hps : ps = [] := List.isEmpty_iff.mp hE
    subst hps
    simp
  · constructor
    · rintro ⟨dp, hdp, hdd, hp⟩
      rcases List.mem_singleton.mp hdp with rfl
      exact ⟨hdd.symm ▸ rfl, ((List.perm_insertionSort (fun a b => a ≤ b) ps).mem_iff).mp hp⟩
    · rintro ⟨hdd, hp⟩
      subst hdd
      exact ⟨⟨dd, List.insertionSort (fun a b => a ≤ b) ps⟩, List.mem_singleton.mpr rfl, rfl,
        ((List.perm_insertionSort (fun a b => a ≤ b) ps).mem_iff).mpr hp⟩

theorem mergeRuns_spec :
    ∀ (dps : List DocPosition) (cur : Option (Nat × List Nat)),
      List.Pairwise (fun a b : DocPosition => a.doc_index ≤ b.doc_index) dps →
      (∀ d0 ps0, cur = some (d0, ps0) → ∀ dp ∈ dps, d0 ≤ dp.doc_index) →
      List.Pairwise (fun a b : DocPosition => a.doc_index < b.doc_index)
          (InvIdx.mergeRuns cur dps) ∧
        (∀ dp ∈ InvIdx.mergeRuns cur dps,
          dp.paragraph_positions ≠ [] ∧
            List.Pairwise (fun a b => a ≤ b) dp.paragraph_positions) ∧
        (∀ d0 ps0, cur = some (d0, ps0) →
          ∀ dp ∈ InvIdx.mergeRuns cur dps, d0 ≤ dp.doc_index) ∧
        (∀ dd p,
          (∃ dp ∈ InvIdx.mergeRuns cur dps, dp.doc_index = dd ∧
              p ∈ dp.paragraph_positions) ↔
            ((∃ ps0, cur = some (dd, ps0) ∧ p ∈ ps0) ∨
              (∃ dp ∈ dps, dp.doc_index = dd ∧ p ∈ dp.paragraph_positions))) := by
  intro dps
  induction dps with
  | nil =>
    intro cur hsorted hcur
    cases cur with
    | none =>
      refine ⟨by simp [InvIdx.mergeRuns], by simp [InvIdx.mergeRuns], ?_, ?_⟩
      · intro d0 ps0 h; cases h
      · intro dd p
        simp [InvIdx.mergeRuns]
    | some c =>
      obtain ⟨d0, ps0⟩ := c
      have hout : InvIdx.mergeRuns (some (d0, ps0)) [] = InvIdx.flushRun d0 ps0 := rfl
      refine ⟨hout ▸ flushRun_pairwise d0 ps0, ?_, ?_, ?_⟩
      · intro dp hdp
        rw [hout] at hdp
        have := mem_flushRun hdp
        exact ⟨this.2.1, this.2.2.1⟩
      · intro d1 ps1 hE dp hdp
        cases hE
        rw [hout] at hdp
        rw [(mem_flushRun hdp).1]
      · intro dd p
        rw [hout]
        rw [show (∃ dp ∈ InvIdx.flushRun d0 ps0, dp.doc_index = dd ∧
            p ∈ dp.paragraph_positions) ↔ (dd = d0 ∧ p ∈ ps0) from flushRun_occ]
        constructor
        · rintro ⟨rfl, hp⟩
          exact Or.inl ⟨ps0, rfl, hp⟩
        · rintro (⟨ps1, hE, hp⟩ | ⟨dp, hdp, _⟩)
          · cases hE; exact ⟨rfl, hp⟩
          · simp at hdp
  | cons dp rest ih =>
    intro cur hsorted hcur
    rcases List.pairwise_cons.mp hsorted with ⟨hddle, hrest⟩
    cases cur with
    | none =>
      have hout : InvIdx.mergeRuns none (dp :: rest) =
          InvIdx.mergeRuns (some (dp.doc_index, dp.paragraph_positions)) rest := rfl
      have hcur' : ∀ d0 ps0,
          (some (dp.doc_index, dp.paragraph_positions) : Option (Nat × List Nat))
            = some (d0, ps0) → ∀ x ∈ rest, d0 ≤ x.doc_index := by
        intro d0 ps0 hE x hx
        cases hE
        exact hddle x hx
      obtain ⟨ha, hb, hc, hd⟩ := ih (some (dp.doc_index, dp.paragraph_positions)) hrest hcur'
      refine ⟨hout ▸ ha, ?_, ?_, ?_⟩
      · intro x hx; rw [hout] at hx; exact hb x hx
      · intro d0 ps0 hE; cases hE
      · intro dd p
        rw [hout, hd dd p]
        constructor
        · rintro (⟨ps1, hE, hp⟩ | ⟨x, hx, hxp⟩)
          · cases hE
            exact Or.inr ⟨dp, List.mem_cons_self _ _, rfl, hp⟩
          · exact Or.inr ⟨x, List.mem_cons_of_mem _ hx, hxp⟩
        · rintro (⟨ps1, hE, _⟩ | ⟨x, hx, hxd, hxp⟩)
          · cases hE
          · rcases List.mem_cons.mp hx with rfl | hx2
            · exact Or.inl ⟨x.paragraph_positions, by rw [hxd], hxp⟩
            · exact Or.inr ⟨x, hx2, hxd, hxp⟩
    | some c =>
      obtain ⟨d0, ps0⟩ := c
      have hd0dp : d0 ≤ dp.doc_index := hcur d0 ps0 rfl dp (List.mem_cons_self _ _)
      by_cases heq : dp.doc_index = d0
      · -- merge into the current run
        have hout : InvIdx.mergeRuns (some (d0, ps0)) (dp :: rest) =
            InvIdx.mergeRuns (some (d0, unionS ps0 dp.paragraph_positions)) rest := by
          show (if dp.doc_index = d0 then _ else _) = _
          rw [if_pos heq]
        have hcur' : ∀ d1 ps1,
            (some (d0, unionS ps0 dp.paragraph_positions) : Option (Nat × List Nat))
              = some (d1, ps1) → ∀ x ∈ rest, d1 ≤ x.doc_index := by
          intro d1 ps1 hE x hx
          cases hE
          exact hcur d0 ps0 rfl x (List.mem_cons_of_mem _ hx)
        obtain ⟨ha, hb, hc, hd⟩ :=
          ih (some (d0, unionS ps0 dp.paragraph_positions)) hrest hcur'
        refine ⟨hout ▸ ha, ?_, ?_, ?_⟩
        · intro x hx; rw [hout] at hx; exact hb x hx
        · intro d1 ps1 hE x hx
          cases hE
          rw [hout] at hx
          exact hc d0 (unionS ps0 dp.paragraph_positions) rfl x hx
        · intro dd p
          rw [hout, hd dd p]
          constructor
          · rintro (⟨ps1, hE, hp⟩ | ⟨x, hx, hxd, hxp⟩)
            · cases hE
              rcases (mem_unionS _ _ _).mp hp with hp0 | hpd
              · exact Or.inl ⟨ps0, rfl, hp0⟩
              · exact Or.inr ⟨dp, List.mem_cons_self _ _, heq, hpd⟩
            · exact Or.inr ⟨x, List.mem_cons_of_mem _ hx, hxd, hxp⟩
          · rintro (⟨ps1, hE, hp⟩ | ⟨x, hx, hxd, hxp⟩)
            · cases hE
              exact Or.inl ⟨_, rfl, (mem_unionS _ _ _).mpr (Or.inl hp)⟩
            · rcases List.mem_cons.mp hx with rfl | hx2
              · refine Or.inl ⟨unionS ps0 x.paragraph_positions, ?_,
                  (mem_unionS x.paragraph_positions ps0 p).mpr (Or.inr hxp)⟩
                rw [← hxd, heq]
              · exact Or.inr ⟨x, hx2, hxd, hxp⟩
      · -- flush the current run, start a new one
        have hlt : d0 < dp.doc_index := lt_of_le_of_ne hd0dp (Ne.symm heq)
        have hout : InvIdx.mergeRuns (some (d0, ps0)) (dp :: rest) =
            InvIdx.flushRun d0 ps0 ++
              InvIdx.mergeRuns (some (dp.doc_index, dp.paragraph_positions)) rest := by
          show (if dp.doc_index = d0 then _ else _) = _
          rw [if_neg heq]
        have hcur' : ∀ d1 ps1,
            (some (dp.doc_index, dp.paragraph_positions) : Option (Nat × List Nat))
              = some (d1, ps1) → ∀ x ∈ rest, d1 ≤ x.doc_index := by
          intro d1 ps1 hE x hx
          cases hE
          exact hddle x hx
        obtain ⟨ha, hb, hc, hd⟩ :=
          ih (some (dp.doc_index, dp.paragraph_positions)) hrest hcur'
        refine ⟨?_, ?_, ?_, ?_⟩
        · rw [hout, List.pairwise_append]
          refine ⟨flushRun_pairwise d0 ps0, ha, ?_⟩
          intro x hx y hy
          have hxd : x.doc_index = d0 := (mem_flushRun hx).1
          have hyd : dp.doc_index ≤ y.doc_index :=
            hc dp.doc_index dp.paragraph_positions rfl y hy
          rw [hxd]
          exact lt_of_lt_of_le hlt hyd
        · intro x hx
          rw [hout, List.mem_append] at hx
          rcases hx with hx | hx
          · have := mem_flushRun hx
            exact ⟨this.2.1, this.2.2.1⟩
          · exact hb x hx
        · intro d1 ps1 hE x hx
          cases hE
          rw [hout, List.mem_append] at hx
          rcases hx with hx | hx
          · rw [(mem_flushRun hx).1]
          · exact le_trans hd0dp (hc dp.doc_index dp.paragraph_positions rfl x hx)
        · intro dd p
          rw [hout]
          have hsplitmem : (∃ x ∈ InvIdx.flushRun d0 ps0 ++
                InvIdx.mergeRuns (some (dp.doc_index, dp.paragraph_positions)) rest,
                x.doc_index = dd ∧ p ∈ x.paragraph_positions) ↔
              ((∃ x ∈ InvIdx.flushRun d0 ps0, x.doc_index = dd ∧
                  p ∈ x.paragraph_positions) ∨
                (∃ x ∈ InvIdx.mergeRuns (some (dp.doc_index, dp.paragraph_positions)) rest,
                  x.doc_index = dd ∧ p ∈ x.paragraph_positions)) := by
            constructor
            · rintro ⟨x, hx, hprop⟩
              rcases List.mem_append.mp hx with hx | hx
              · exact Or.inl ⟨x, hx, hprop⟩
              · exact Or.inr ⟨x, hx, hprop⟩
            · rintro (⟨x, hx, hprop⟩ | ⟨x, hx, hprop⟩)
              · exact ⟨x, List.mem_append_left _ hx, hprop⟩
              · exact ⟨x, List.mem_append_right _ hx, hprop⟩
          rw [hsplitmem, flushRun_occ, hd dd p]
          constructor
          · rintro (⟨rfl, hp⟩ | (⟨ps1, hE, hp⟩ | ⟨x, hx, hxd, hxp⟩))
            · exact Or.inl ⟨ps0, rfl, hp⟩
            · cases hE
              exact Or.inr ⟨dp, List.mem_cons_self _ _, rfl, hp⟩
            · exact Or.inr ⟨x, List.mem_cons_of_mem _ hx, hxd, hxp⟩
          · rintro (⟨ps1, hE, hp⟩ | ⟨x, hx, hxd, hxp⟩)
            · cases hE
              exact Or.inl ⟨rfl, hp⟩
            · rcases List.mem_cons.mp hx with rfl | hx2
              · exact Or.inr (Or.inl ⟨x.paragraph_positions, by rw [hxd], hxp⟩)
              · exact Or.inr (Or.inr ⟨x, hx2, hxd, hxp⟩)

/-- A dirty inverted index for dedupe: duplicate doc entries with
overlapping unsorted positions, and an entry with an empty position
list. -/
def exampleC10Inv : InvertedIndex :=
  ⟨[("xx".toList, [⟨2, [1]⟩, ⟨0, [3, 1]⟩, ⟨0, [1, 2]⟩, ⟨1, []⟩])], 3⟩

/-- C10: after `remove_duplicate_entries`, every posting list is sorted by
strictly increasing `doc_index` (hence has at most one `DocPosition` per
doc id), every surviving `DocPosition` has a non-empty sorted position
list, and per doc id the set of positions is exactly the union of the
positions that the original posting stored for that doc id (entries whose
merged position list is empty are removed). -/
theorem claim_C10 (inv : InvertedIndex) :
    ∀ kv ∈ (InvIdx.remove_duplicate_entries inv).word_to_docs,
      List.Pairwise (fun a b : DocPosition => a.doc_index < b.doc_index) kv.2 ∧
      (∀ dp ∈ kv.2, dp.paragraph_positions ≠ [] ∧
        List.Pairwise (fun a b => a ≤ b) dp.paragraph_positions) ∧
      ∃ dps0, (kv.1, dps0) ∈ inv.word_to_docs ∧
        ∀ dd p, (∃ dp ∈ kv.2, dp.doc_index = dd ∧ p ∈ dp.paragraph_positions) ↔
                (∃ dp ∈ dps0, dp.doc_index = dd ∧ p ∈ dp.paragraph_positions) := by
  intro kv hkv
  unfold InvIdx.remove_duplicate_entries at hkv
  simp only [List.mem_map] at hkv
  obtain ⟨p0, hp0, rfl⟩ := hkv
  have hsorted : List.Pairwise (fun a b : DocPosition => a.doc_index ≤ b.doc_index)
      (sortByKey (fun dp => dp.doc_index) p0.2) :=
    sortByKey_pairwise (fun dp => dp.doc_index) p0.2
  obtain ⟨ha, hb, _, hd⟩ :=
    mergeRuns_spec (sortByKey (fun dp => dp.doc_index) p0.2) none hsorted
      (by intro d0 ps0 h; cases h)
  refine ⟨ha, hb, p0.2, by simpa using hp0, ?_⟩
  intro dd p
  rw [hd dd p]
  constructor
  · rintro (⟨ps0, hE, _⟩ | ⟨dp, hdp, hprop⟩)
    · cases hE
    · exact ⟨dp, mem_sortByKey.mp hdp, hprop⟩
  · rintro ⟨dp, hdp, hprop⟩
    exact Or.inr ⟨dp, mem_sortByKey.mpr hdp, hprop⟩

/-- C10 witness: on a concrete dirty posting the merged posting
`[(0, [1,2,3]), (2, [1])]` is strictly increasing in doc index. -/
theorem claim_C10_witness :
    List.Pairwise (fun a b : DocPosition => a.doc_index < b.doc_index)
      ([⟨0, [1, 2, 3]⟩, ⟨2, [1]⟩] : List DocPosition) :=
  (claim_C10 exampleC10Inv ("xx".toList, [⟨0, [1, 2, 3]⟩, ⟨2, [1]⟩]) (by decide)).1

/-! ### Forward index persistence (`document_record.rs`, claim C8) -/

/-- `DocumentIndex::validate_index` from `src/document_record.rs`. -/
def DocumentIndex.validate_index (index : DocumentIndex) : Bool :=
  if index.documents.isEmpty && decide (0 < index.total_documents) then false
  else if decide (index.documents.length ≠ index.total_documents) then false
  else index.documents.all (fun doc =>
    !doc.file_path.isEmpty &&
    !(doc.content.isEmpty && decide (0 < doc.paragraph_count)) &&
    decide (doc.content.length = doc.paragraph_count))

/-- The backup fallback of `DocumentIndex::load_from_file`.  The input
models the on-disk `<path>.backup`: `none` when no backup file exists,
`some none` when it exists but fails to read or parse, `some (some idx)`
when it parses to `idx`.  The returned flag records whether the main file
was restored from the backup (the `fs::copy` call). -/
def loadBackupFallback (backupFile : Option (Option DocumentIndex)) :
    Except Unit DocumentIndex × Bool :=
  match backupFile with
  | some (some bidx) =>
    if bidx.validate_index then (Except.ok bidx, true) else (Except.error (), false)
  | some none => (Except.error (), false)
  | none => (Except.error (), false)

/-- `DocumentIndex::load_from_file` from `src/document_record.rs`, over an
abstract filesystem: `mainFile` is the parse result of the main index
file (`none` = read or parse failure), `backupFile` as in
`loadBackupFallback`. -/
def DocumentIndex.load_from_file (mainFile : Option DocumentIndex)
    (backupFile : Option (Option DocumentIndex)) : Except Unit DocumentIndex × Bool :=
  match mainFile with
  | some idx =>
    if idx.validate_index then (Except.ok idx, false) else loadBackupFallback backupFile
  | none => loadBackupFallback backupFile

theorem validate_index_iff (idx : DocumentIndex) :
    idx.validate_index = true ↔
      (idx.total_documents = idx.documents.length ∧
        ∀ doc ∈ idx.documents, doc.file_path ≠ [] ∧
          doc.content.length = doc.paragraph_count ∧
          (doc.content ≠ [] ↔ 0 < doc.paragraph_count)) := by
  unfold DocumentIndex.validate_index
  by_cases hB : idx.documents.length = idx.total_documents
  · have hA : (idx.documents.isEmpty && decide (0 < idx.total_documents)) = false := by
      cases hE : idx.documents.isEmpty with
      | false => simp
      | true =>
        have hlen0 : idx.documents.length = 0 := by
          rw [List.isEmpty_iff.mp hE]; rfl
        simp only [Bool.true_and, decide_eq_false_iff_not]
        omega
    rw [hA]
    simp only [Bool.false_eq_true, if_false]
    rw [if_neg (by simp [hB])]
    rw [List.all_eq_true]
    constructor
    · intro h
      refine ⟨hB.symm, ?_⟩
      intro doc hdoc
      have hd := h doc hdoc
      simp only [Bool.and_eq_true, Bool.not_eq_true', decide_eq_true_eq] at hd
      obtain ⟨⟨hpath, hcnt⟩, hlen⟩ := hd
      have hpath' : doc.file_path ≠ [] := by
        intro hnil
        rw [hnil] at hpath
        simp at hpath
      refine ⟨hpath', hlen, ?_, ?_⟩
      · intro hne
        rcases Nat.eq_zero_or_pos doc.paragraph_count with h0 | hpos
        · exfalso
          apply hne
          apply List.length_eq_zero.mp
          rw [hlen, h0]
        · exact hpos
      · intro hpos hnil
        rw [List.isEmpty_iff.mpr hnil] at hcnt
        simp at hcnt
        omega
    · rintro ⟨_, hdocs⟩
      intro doc hdoc
      obtain ⟨hpath, hlen, hiff⟩ := hdocs doc hdoc
      simp only [Bool.and_eq_true, Bool.not_eq_true', decide_eq_true_eq]
      refine ⟨⟨by simpa using hpath, ?_⟩, hlen⟩
      cases hE : doc.content.isEmpty with
      | false => simp
      | true =>
        simp only [Bool.true_and, decide_eq_false_iff_not, Nat.not_lt, Nat.le_zero]
        have hnil := List.isEmpty_iff.mp hE
        by_contra hpos
        exact (hiff.mpr (by omega)) hnil
  · have hfalse : (if idx.documents.isEmpty && decide (0 < idx.total_documents) then false
        else if decide (idx.documents.length ≠ idx.total_documents) then false
        else idx.documents.all (fun doc =>
          !doc.file_path.isEmpty &&
          !(doc.content.isEmpty && decide (0 < doc.paragraph_count)) &&
          decide (doc.content.length = doc.paragraph_count))) = false := by
      split
      · rfl
      · rw [if_pos (by simpa using hB)]
    rw [hfalse]
    simp only [Bool.false_eq_true, false_iff, not_and]
    intro htot
    exact absurd htot.symm hB

/-- C8: `load_from_file` returns the main file's contents exactly when it
parses and validates; on a main-file parse or validation failure it falls
back to the backup, and when the backup parses and validates it restores
the main file from the backup and returns the backup's contents; when
both fail it returns an error.  Validation is exactly: `total_documents`
equals the number of records, every record has a non-empty path,
`|content| = paragraph_count`, and `content` is non-empty iff
`paragraph_count > 0`. -/
theorem claim_C8 (m : Option DocumentIndex) (b : Option (Option DocumentIndex)) :
    (∀ idx, m = some idx → idx.validate_index = true →
      DocumentIndex.load_from_file m b = (Except.ok idx, false)) ∧
    ((m = none ∨ ∃ idx, m = some idx ∧ idx.validate_index = false) →
      ∀ bidx, b = some (some bidx) → bidx.validate_index = true →
        DocumentIndex.load_from_file m b = (Except.ok bidx, true)) ∧
    ((m = none ∨ ∃ idx, m = some idx ∧ idx.validate_index = false) →
      (b = none ∨ b = some none ∨ ∃ bidx, b = some (some bidx) ∧ bidx.validate_index = false) →
      (DocumentIndex.load_from_file m b).1 = Except.error ()) ∧
    (∀ idx : DocumentIndex, idx.validate_index = true ↔
      (idx.total_documents = idx.documents.length ∧
        ∀ doc ∈ idx.documents, doc.file_path ≠ [] ∧
          doc.content.length = doc.paragraph_count ∧
          (doc.content ≠ [] ↔ 0 < doc.paragraph_count))) := by
  have hload_some : ∀ (idx : DocumentIndex) (bf : Option (Option DocumentIndex)),
      DocumentIndex.load_from_file (some idx) bf =
        if idx.validate_index = true then (Except.ok idx, false)
        else loadBackupFallback bf := fun _ _ => rfl
  have hload_none : ∀ (bf : Option (Option DocumentIndex)),
      DocumentIndex.load_from_file none bf = loadBackupFallback bf := fun _ => rfl
  have hfb_some : ∀ (bidx : DocumentIndex),
      loadBackupFallback (some (some bidx)) =
        if bidx.validate_index = true then (Except.ok bidx, true)
        else (Except.error (), false) := fun _ => rfl
  refine ⟨?_, ?_, ?_, validate_index_iff⟩
  · rintro idx rfl hv
    rw [hload_some, if_pos hv]
  · rintro hm bidx rfl hbv
    have hfb : loadBackupFallback (some (some bidx)) = (Except.ok bidx, true) := by
      rw [hfb_some, if_pos hbv]
    rcases hm with rfl | ⟨idx, rfl, hv⟩
    · rw [hload_none]
      exact hfb
    · rw [hload_some, hv]
      simpa using hfb
  · rintro hm hb
    have hfb : (loadBackupFallback b).1 = Except.error () := by
      rcases hb with rfl | rfl | ⟨bidx, rfl, hbv⟩
      · rfl
      · rfl
      · rw [hfb_some, hbv]
        rfl
    rcases hm with rfl | ⟨idx, rfl, hv⟩
    · rw [hload_none]
      exact hfb
    · rw [hload_some, hv]
      simpa using hfb

/-- C8 witness: a valid one-document index loads from the main file
unchanged, and an invalid main file falls back to a valid backup,
restoring the main file. -/
theorem claim_C8_witness :
    DocumentIndex.load_from_file (some exampleIndex1) none
        = (Except.ok exampleIndex1, false) ∧
      DocumentIndex.load_from_file none (some (some exampleIndex1))
        = (Except.ok exampleIndex1, true) :=
  ⟨(claim_C8 (some exampleIndex1) none).1 exampleIndex1 rfl (by decide),
    (claim_C8 none (some (some exampleIndex1))).2.1 (Or.inl rfl) exampleIndex1 rfl
      (by decide)⟩

/-! ### Proximity check (`SearchEngine::check_words_proximity`, claim C5)

Rust `str::find` returns byte offsets and `str::len` counts bytes, so the
gap computed by the source is a UTF-8 byte distance.  `findSub` returns
the byte offset of the first occurrence together with the remainder after
the occurrence. -/

/-- The paragraph normalization applied inside the proximity check
(`to_lowercase` then `replace('\'', "")`). -/
def normalizeForSearch (p : List Char) : List Char :=
  (toLower p).filter (fun c => !(c == aposChar))

namespace SearchEng

/-- Model of `normalized_paragraph[last_position..].find(word)` plus the
advance past the found word: byte offset of the first occurrence and the
suffix after it. -/
def findSub (w : List Char) : List Char → Option (Nat × List Char)
  | [] => if w.isPrefixOf ([] : List Char) then some (0, []) else none
  | c :: cs =>
    if w.isPrefixOf (c :: cs) then some (0, (c :: cs).drop w.length)
    else (findSub w cs).map (fun r => (c.utf8Size + r.1, r.2))

/-- The distance-checking tail of the proximity loop (all words after the
first): find each word after the previous one, reject when the byte gap
exceeds 15. -/
def proxRest (rem : List Char) : List (List Char) → Bool
  | [] => true
  | w :: ws =>
    match findSub w rem with
    | none => false
    | some r => if r.1 > 15 then false else proxRest r.2 ws

/-- `SearchEngine::check_words_proximity` from `src/search_engine.rs`. -/
def check_words_proximity (paragraph : List Char) (query_words : List (List Char)) :
    Bool :=
  if query_words.length < 2 then true
  else
    match query_words with
    | [] => true
    | w :: ws =>
      match findSub w (normalizeForSearch paragraph) with
      | none => false
      | some r => proxRest r.2 ws

end SearchEng

/-- Modelled from the spec's words (for comparison with the source): the
same proximity walk but with the gap measured in characters instead of
UTF-8 bytes. -/
def findSubChars (w : List Char) : List Char → Option (Nat × List Char)
  | [] => if w.isPrefixOf ([] : List Char) then some (0, []) else none
  | c :: cs =>
    if w.isPrefixOf (c :: cs) then some (0, (c :: cs).drop w.length)
    else (findSubChars w cs).map (fun r => (1 + r.1, r.2))

/-- Modelled from the spec's words: character-gap version of `proxRest`. -/
def proxRestChars (rem : List Char) : List (List Char) → Bool
  | [] => true
  | w :: ws =>
    match findSubChars w rem with
    | none => false
    | some r => if r.1 > 15 then false else proxRestChars r.2 ws

/-- Modelled from the spec's words: the proximity check with gaps of at
most 15 characters, as the claim states it. -/
def check_words_proximity_chars (paragraph : List Char)
    (query_words : List (List Char)) : Bool :=
  if query_words.length < 2 then true
  else
    match query_words with
    | [] => true
    | w :: ws =>
      match findSubChars w (normalizeForSearch paragraph) with
      | none => false
      | some r => proxRestChars r.2 ws

example : SearchEng.check_words_proximity ("звільнити солдата резерву петрова".toList)
    ["солдат".toList, "петров".toList] = false := by decide
example : SearchEng.check_words_proximity ("звільнити солдата резерву петрова".toList)
    ["солдат".toList, "резерв".toList] = true := by decide
example : SearchEng.check_words_proximity ("аб ттттттт вг".toList)
    ["аб".toList, "вг".toList] = false := by decide
example : check_words_proximity_chars ("аб ттттттт вг".toList)
    ["аб".toList, "вг".toList] = true := by decide

/-! ### Characterization of the proximity walk (claim C5) -/

theorem utf8Len_cons (c : Char) (l : List Char) :
    utf8Len (c :: l) = c.utf8Size + utf8Len l := by
  simp [utf8Len]

/-- The greedy proximity chain, in the claim's terms: after the previous
found stem, the next stem occurs (at its first occurrence) within a gap
of at most 15 UTF-8 bytes, and so on. -/
def ProxChain : List Char → List (List Char) → Prop
  | _, [] => True
  | rem, w :: ws => ∃ pre rest, rem = pre ++ w ++ rest ∧
      (∀ pre2 rest2, rem = pre2 ++ w ++ rest2 → pre.length ≤ pre2.length) ∧
      utf8Len pre ≤ 15 ∧ ProxChain rest ws

/-- The whole proximity property: the first stem occurs somewhere (first
occurrence, no gap bound), each later stem follows within 15 bytes. -/
def ProxFound (np : List Char) (qs : List (List Char)) : Prop :=
  match qs with
  | [] => True
  | w :: ws => ∃ pre rest, np = pre ++ w ++ rest ∧
      (∀ pre2 rest2, np = pre2 ++ w ++ rest2 → pre.length ≤ pre2.length) ∧
      ProxChain rest ws

theorem findSub_some_iff :
    ∀ (h w : List Char) (gap : Nat) (rest : List Char),
      SearchEng.findSub w h = some (gap, rest) ↔
        ∃ pre, h = pre ++ w ++ rest ∧ utf8Len pre = gap ∧
          ∀ pre2 rest2, h = pre2 ++ w ++ rest2 → pre.length ≤ pre2.length := by
  intro h
  induction h with
  | nil =>
    intro w gap rest
    unfold SearchEng.findSub
    by_cases hw : w.isPrefixOf ([] : List Char) = true
    · have hwnil : w = [] := List.prefix_nil.mp (List.isPrefixOf_iff_prefix.mp hw)
      subst hwnil
      rw [if_pos hw]
      constructor
      · intro hE
        have hE' := Option.some.inj hE
        rw [Prod.mk.injEq] at hE'
        obtain ⟨hg, hr⟩ := hE'
        refine ⟨[], by rw [← hr]; rfl, by rw [← hg]; rfl, ?_⟩
        intro pre2 rest2 _
        simp
      · rintro ⟨pre, hdec, hgap, _⟩
        have hpre : pre = [] := by
          cases pre with
          | nil => rfl
          | cons a as => simp at hdec
        subst hpre
        have hrest : rest = [] := by
          cases rest with
          | nil => rfl
          | cons a as => simp at hdec
        subst hrest
        rw [← hgap]
        rfl
    · rw [if_neg hw]
      constructor
      · intro hE; cases hE
      · rintro ⟨pre, hdec, _, _⟩
        exfalso
        apply hw
        have hwnil : w = [] := by
          have hlen := congrArg List.length hdec
          simp at hlen
          exact List.length_eq_zero.mp (by omega)
        rw [hwnil]
        rfl
  | cons c cs ih =>
    intro w gap rest
    unfold SearchEng.findSub
    by_cases hw : w.isPrefixOf (c :: cs) = true
    · rw [if_pos hw]
      obtain ⟨t, ht⟩ := List.isPrefixOf_iff_prefix.mp hw
      constructor
      · intro hE
        have hE' := Option.some.inj hE
        rw [Prod.mk.injEq] at hE'
        obtain ⟨hg, hr⟩ := hE'
        refine ⟨[], ?_, by rw [← hg]; rfl, ?_⟩
        · rw [← hr, List.nil_append, ← ht, List.drop_left]
        · intro pre2 rest2 _
          simp
      · rintro ⟨pre, hdec, hgap, hmin⟩
        have h0 := hmin [] t (by rw [List.nil_append, ht])
        simp only [List.length_nil, Nat.le_zero] at h0
        have hpre : pre = [] := List.length_eq_zero.mp h0
        subst hpre
        rw [List.nil_append] at hdec
        have hrest : rest = (c :: cs).drop w.length := by
          rw [hdec, List.drop_left]
        rw [← hgap, hrest]
        rfl
    · rw [if_neg hw]
      have hnotnil : ∀ rest2 : List Char, c :: cs ≠ w ++ rest2 := by
        intro rest2 hE
        exact hw (List.isPrefixOf_iff_prefix.mpr ⟨rest2, hE.symm⟩)
      constructor
      · intro hE
        cases hfs : SearchEng.findSub w cs with
        | none => rw [hfs] at hE; cases hE
        | some r =>
          rw [hfs] at hE
          simp only [Option.map_some'] at hE
          have hE' := Option.some.inj hE
          rw [Prod.mk.injEq] at hE'
          obtain ⟨hg, hr⟩ := hE'
          rcases (ih w r.1 r.2).mp (by rw [hfs]) with ⟨pre', hdec, hgap', hmin'⟩
          refine ⟨c :: pre', ?_, ?_, ?_⟩
          · rw [← hr]
            simp only [List.cons_append]
            rw [← hdec]
          · rw [utf8Len_cons, hgap']
            exact hg
          · intro pre2 rest2 hdec2
            cases pre2 with
            | nil =>
              exfalso
              rw [List.nil_append] at hdec2
              exact hnotnil rest2 hdec2
            | cons p2 pre2' =>
              have hcs : cs = pre2' ++ w ++ rest2 := by
                have h2 := hdec2
                simp only [List.cons_append, List.cons.injEq] at h2
                rw [h2.2]
              have := hmin' pre2' rest2 hcs
              simp only [List.length_cons]
              omega
      · rintro ⟨pre, hdec, hgap, hmin⟩
        cases pre with
        | nil =>
          exfalso
          rw [List.nil_append] at hdec
          exact hnotnil rest hdec
        | cons p pre' =>
          have hpc : p = c ∧ cs = pre' ++ w ++ rest := by
            have h2 := hdec
            simp only [List.cons_append, List.cons.injEq] at h2
            exact ⟨h2.1.symm, by rw [h2.2]⟩
          obtain ⟨hp, hcs⟩ := hpc
          subst hp
          have hmin' : ∀ pre2 rest2, cs = pre2 ++ w ++ rest2 →
              pre'.length ≤ pre2.length := by
            intro pre2 rest2 hdec2
            have := hmin (p :: pre2) rest2 (by
              simp only [List.cons_append]
              rw [← hdec2])
            simp only [List.length_cons] at this
            omega
          have hfs := (ih w (utf8Len pre') rest).mpr ⟨pre', hcs, rfl, hmin'⟩
          rw [hfs]
          simp only [Option.map_some']
          rw [← hgap, utf8Len_cons]

theorem exists_minimal_decomp :
    ∀ (h w pre rest : List Char), h = pre ++ w ++ rest →
      ∃ pre0 rest0, h = pre0 ++ w ++ rest0 ∧
        ∀ pre2 rest2, h = pre2 ++ w ++ rest2 → pre0.length ≤ pre2.length := by
  intro h
  induction h with
  | nil =>
    intro w pre rest hdec
    refine ⟨pre, rest, hdec, ?_⟩
    intro pre2 rest2 _
    have hpre : pre = [] := by
      cases pre with
      | nil => rfl
      | cons a as => simp at hdec
    rw [hpre]
    simp
  | cons c cs ihh =>
    intro w pre rest hdec
    by_cases hw2 : w.isPrefixOf (c :: cs) = true
    · obtain ⟨t, ht⟩ := List.isPrefixOf_iff_prefix.mp hw2
      refine ⟨[], t, by rw [List.nil_append, ht], ?_⟩
      intro pre2 rest2 _
      simp
    · have hnotnil : ∀ rest2 : List Char, c :: cs ≠ w ++ rest2 := by
        intro rest2 hE
        exact hw2 (List.isPrefixOf_iff_prefix.mpr ⟨rest2, hE.symm⟩)
      cases pre with
      | nil =>
        exfalso
        rw [List.nil_append] at hdec
        exact hnotnil rest hdec
      | cons p pre' =>
        have hpc : p = c ∧ cs = pre' ++ w ++ rest := by
          have h2 := hdec
          simp only [List.cons_append, List.cons.injEq] at h2
          exact ⟨h2.1.symm, by rw [h2.2]⟩
        obtain ⟨hp, hcs⟩ := hpc
        subst hp
        obtain ⟨pre0, rest0, hdec0, hmin0⟩ := ihh w pre' rest hcs
        refine ⟨p :: pre0, rest0, by
          simp only [List.cons_append]
          rw [← hdec0], ?_⟩
        intro pre2 rest2 hdec2
        cases pre2 with
        | nil =>
          exfalso
          rw [List.nil_append] at hdec2
          exact hnotnil rest2 hdec2
        | cons p2 pre2' =>
          have hcs2 : cs = pre2' ++ w ++ rest2 := by
            have h2 := hdec2
            simp only [List.cons_append, List.cons.injEq] at h2
            rw [h2.2]
          have := hmin0 pre2' rest2 hcs2
          simp only [List.length_cons]
          omega

theorem findSub_none_iff :
    ∀ (h w : List Char),
      SearchEng.findSub w h = none ↔ ∀ pre rest, h ≠ pre ++ w ++ rest := by
  intro h w
  cases hfs : SearchEng.findSub w h with
  | none =>
    simp only [true_iff]
    intro pre rest hdec
    obtain ⟨pre0, rest0, hdec0, hmin0⟩ := exists_minimal_decomp h w pre rest hdec
    have := (findSub_some_iff h w (utf8Len pre0) rest0).mpr ⟨pre0, hdec0, rfl, hmin0⟩
    rw [hfs] at this
    cases this
  | some r =>
    constructor
    · intro hE; cases hE
    · intro hall
      exfalso
      rcases (findSub_some_iff h w r.1 r.2).mp (by rw [hfs]) with ⟨pre, hdec, _, _⟩
      exact hall pre r.2 hdec

theorem minimal_decomp_unique {h w pre rest pre2 rest2 : List Char}
    (h1 : h = pre ++ w ++ rest)
    (hm1 : ∀ p r, h = p ++ w ++ r → pre.length ≤ p.length)
    (h2 : h = pre2 ++ w ++ rest2)
    (hm2 : ∀ p r, h = p ++ w ++ r → pre2.length ≤ p.length) :
    pre = pre2 ∧ rest = rest2 := by
  have hl : pre.length = pre2.length :=
    Nat.le_antisymm (hm1 pre2 rest2 h2) (hm2 pre rest h1)
  have happ : pre ++ (w ++ rest) = pre2 ++ (w ++ rest2) := by
    rw [← List.append_assoc, ← List.append_assoc, ← h1, ← h2]
  obtain ⟨hp, hwr⟩ := List.append_inj happ hl
  exact ⟨hp, List.append_cancel_left hwr⟩

theorem proxRest_iff : ∀ (ws : List (List Char)) (rem : List Char),
    SearchEng.proxRest rem ws = true ↔ ProxChain rem ws := by
  intro ws
  induction ws with
  | nil =>
    intro rem
    constructor
    · intro _; exact trivial
    · intro _; rfl
  | cons w ws ih =>
    intro rem
    unfold SearchEng.proxRest
    cases hfs : SearchEng.findSub w rem with
    | none =>
      show (false = true) ↔ _
      constructor
      · intro hE; cases hE
      · intro hpc
        obtain ⟨pre2, rest2, hdec2, _, _, _⟩ := hpc
        exact absurd hdec2 ((findSub_none_iff rem w).mp hfs pre2 rest2)
    | some r =>
      show (if r.1 > 15 then false else SearchEng.proxRest r.2 ws) = true ↔ _
      obtain ⟨pre, hdec, hgap, hmin⟩ := (findSub_some_iff rem w r.1 r.2).mp (by rw [hfs])
      by_cases hgt : r.1 > 15
      · rw [if_pos hgt]
        constructor
        · intro hE; cases hE
        · intro hpc
          obtain ⟨pre2, rest2, hdec2, hmin2, hle2, _⟩ := hpc
          exfalso
          obtain ⟨hpE, _⟩ := minimal_decomp_unique hdec2 hmin2 hdec hmin
          rw [hpE, hgap] at hle2
          omega
      · rw [if_neg hgt, ih r.2]
        constructor
        · intro hchain
          exact ⟨pre, r.2, hdec, hmin, by rw [hgap]; omega, hchain⟩
        · intro hpc
          obtain ⟨pre2, rest2, hdec2, hmin2, _, hchain2⟩ := hpc
          obtain ⟨_, hrE⟩ := minimal_decomp_unique hdec2 hmin2 hdec hmin
          rw [hrE] at hchain2
          exact hchain2

theorem check_words_proximity_iff (p : List Char) (qs : List (List Char))
    (h2 : 2 ≤ qs.length) :
    SearchEng.check_words_proximity p qs = true ↔
      ProxFound (normalizeForSearch p) qs := by
  unfold SearchEng.check_words_proximity
  rw [if_neg (by omega)]
  cases qs with
  | nil => simp at h2
  | cons w ws =>
    show (match SearchEng.findSub w (normalizeForSearch p) with
      | none => false
      | some r => SearchEng.proxRest r.2 ws) = true ↔ _
    cases hfs : SearchEng.findSub w (normalizeForSearch p) with
    | none =>
      show (false = true) ↔ _
      constructor
      · intro hE; cases hE
      · intro hpf
        obtain ⟨pre, rest, hdec, _, _⟩ := hpf
        exact absurd hdec ((findSub_none_iff _ w).mp hfs pre rest)
    | some r =>
      show (SearchEng.proxRest r.2 ws = true) ↔ _
      obtain ⟨pre, hdec, hgap, hmin⟩ :=
        (findSub_some_iff _ w r.1 r.2).mp (by rw [hfs])
      rw [proxRest_iff ws r.2]
      constructor
      · intro hchain
        exact ⟨pre, r.2, hdec, hmin, hchain⟩
      · intro hpf
        obtain ⟨pre2, rest2, hdec2, hmin2, hchain2⟩ := hpf
        obtain ⟨_, hrE⟩ := minimal_decomp_unique hdec2 hmin2 hdec hmin
        rw [hrE] at hchain2
        exact hchain2

/-! ### Claim theorems C5 -/

/-- C5 counterexample: the proximity gap is measured in UTF-8 bytes, not
characters.  On the paragraph `аб ттттттт вг` with stems `аб`, `вг` the
character gap is 9 ≤ 15 (so the claim's character-based rule accepts),
but the byte gap is 16 > 15 and the source rejects. -/
theorem claim_C5_counterexample :
    SearchEng.check_words_proximity ("аб ттттттт вг".toList)
        ["аб".toList, "вг".toList] = false ∧
      check_words_proximity_chars ("аб ттттттт вг".toList)
        ["аб".toList, "вг".toList] = true := by decide

/-- C5 (amended): for queries of two or more stems the proximity check
accepts exactly when each stem can be found left-to-right in query order
in the normalized paragraph — each time at its first occurrence after the
previous find — with a gap of at most 15 UTF-8 bytes between the end of
one found stem and the start of the next; on the paragraph
`звільнити солдата резерву петрова` the stem pair (солдат, петров) is
rejected and the pair (солдат, резерв) is accepted. -/
theorem claim_C5_amended :
    (∀ (p : List Char) (qs : List (List Char)), 2 ≤ qs.length →
      (SearchEng.check_words_proximity p qs = true ↔
        ProxFound (normalizeForSearch p) qs)) ∧
    SearchEng.check_words_proximity ("звільнити солдата резерву петрова".toList)
      ["солдат".toList, "петров".toList] = false ∧
    SearchEng.check_words_proximity ("звільнити солдата резерву петрова".toList)
      ["солдат".toList, "резерв".toList] = true :=
  ⟨check_words_proximity_iff, by decide, by decide⟩

/-- C5 amended, witness: the accepted example yields a concrete greedy
proximity chain. -/
theorem claim_C5_amended_witness :
    ProxFound (normalizeForSearch ("звільнити солдата резерву петрова".toList))
      ["солдат".toList, "резерв".toList] :=
  (claim_C5_amended.1 ("звільнити солдата резерву петрова".toList)
    ["солдат".toList, "резерв".toList] (by decide)).mp (by decide)

/-! ### DOCX numbering extractor (`docx_parser.rs`, claim C6) -/

namespace Docx

/-- Regex whitespace class (Unicode White_Space), covering the characters
this program manipulates. -/
def isWsChar (c : Char) : Bool :=
  c.toNat = 32 || c.toNat = 9 || c.toNat = 10 || c.toNat = 13 || c.toNat = 11 ||
  c.toNat = 12 || c.toNat = 0x85 || c.toNat = 0xA0 || c.toNat = 0x1680 ||
  (0x2000 ≤ c.toNat && c.toNat ≤ 0x200A) || c.toNat = 0x2028 || c.toNat = 0x2029 ||
  c.toNat = 0x202F || c.toNat = 0x205F || c.toNat = 0x3000

/-- Rust `str::trim`. -/
def trimChars (s : List Char) : List Char :=
  ((s.dropWhile isWsChar).reverse.dropWhile isWsChar).reverse

/-- The part of `NUMBERING_REGEX` after the leading digits:
`(\.\d+)*\.\s+` with backtracking semantics. -/
def numTail : List Char → Bool
  | [] => false
  | c :: rest =>
    if c = '.' then
      (match rest with
       | r :: _ => isWsChar r
       | [] => false) ||
      (decide ((rest.takeWhile Char.isDigit) ≠ []) &&
        numTail (rest.drop (rest.takeWhile Char.isDigit).length))
    else false
  termination_by s => s.length
  decreasing_by simp [List.length_drop]; omega

/-- `NUMBERING_REGEX.is_match`: `^\s*\d+(\.\d+)*\.\s+`. -/
def matchesNumbering (s : List Char) : Bool :=
  decide (((s.dropWhile isWsChar).takeWhile Char.isDigit) ≠ []) &&
    numTail ((s.dropWhile isWsChar).drop
      ((s.dropWhile isWsChar).takeWhile Char.isDigit).length)

/-- `QUOTE_NUMBERING_REGEX.is_match`: `^\s*«\s*\d+(\.\d+)*\.\s+`. -/
def matchesQuoteNumbering (s : List Char) : Bool :=
  match s.dropWhile isWsChar with
  | [] => false
  | c :: rest =>
    if c = '«' then
      decide (((rest.dropWhile isWsChar).takeWhile Char.isDigit) ≠ []) &&
        numTail ((rest.dropWhile isWsChar).drop
          ((rest.dropWhile isWsChar).takeWhile Char.isDigit).length)
    else false

/-- `BASIS_REGEX.is_match`: `^\s*Підстава:`. -/
def matchesBasis (s : List Char) : Bool :=
  ("Підстава:".toList).isPrefixOf (s.dropWhile isWsChar)

/-- `SKIP_TEXTS` check in `should_skip_text`. -/
def should_skip_text (t : List Char) : Bool :=
  ("ПОГОДЖЕНО".toList).isPrefixOf t ||
    ("Документ підготовлено".toList).isPrefixOf t

/-- `CurrentNumbering` from `src/docx_parser.rs`. -/
structure CurrentNumbering where
  level_1 : Nat
  level_2 : Nat
  level_3 : Nat
  level_4 : Nat
  deriving DecidableEq

/-- `ParagraphInfo` from `src/docx_parser.rs`. -/
structure ParagraphInfo where
  text : List Char
  style : Option (List Char)
  level : Option Nat
  has_numbering : Bool
  calculated_number : Option (List Char)
  deriving DecidableEq

/-- `ParagraphInfo::new`. -/
def ParagraphInfo.plain (text : List Char) (style : Option (List Char)) :
    ParagraphInfo :=
  ⟨text, style, none, false, none⟩

/-- `ParagraphInfo::with_numbering`. -/
def ParagraphInfo.with_numbering (text : List Char) (style : Option (List Char))
    (level : Nat) (calculated_number : List Char) : ParagraphInfo :=
  ⟨text, style, some level, true, some calculated_number⟩

/-- `STYLE_LEVEL_MAP` from `src/docx_parser.rs`. -/
def STYLE_LEVEL_MAP : List (List Char × Nat) :=
  [("OiiSList1".toList, 1), ("Oii_S_List_1".toList, 1),
   ("OiiSList2".toList, 2), ("Oii_S_List_2".toList, 2),
   ("OiiSList3".toList, 3), ("Oii_S_List_3".toList, 3),
   ("OiiSList4".toList, 4), ("Oii_S_List_4".toList, 4)]

/-- `DocxParser::get_style_level`. -/
def get_style_level (style_name : List Char) : Option Nat :=
  (STYLE_LEVEL_MAP.find? (fun p => decide (p.1 = style_name))).map Prod.snd

/-- Rust `str::parse::<usize>` on an `ilvl` attribute (digits only). -/
def parseNatDigits (s : List Char) : Option Nat :=
  if s ≠ [] && s.all Char.isDigit then
    some (s.foldl (fun acc c => acc * 10 + (c.toNat - 48)) 0)
  else none

/-- `DocxParser::get_numbering_level`: `ilvl + 1` when both `ilvl` and
`numId` are present and `ilvl` parses. -/
def get_numbering_level (ilvl num_id : Option (List Char)) : Option Nat :=
  match ilvl, num_id with
  | some i, some _ => (parseNatDigits i).map (fun l => l + 1)
  | _, _ => none

/-- `DocxParser::update_numbering_for_level`. -/
def update_numbering_for_level (level : Nat) (cn : CurrentNumbering)
    (last_main_point : Nat) : CurrentNumbering :=
  match level with
  | 1 => ⟨last_main_point + 1, 0, 0, 0⟩
  | 2 => ⟨cn.level_1, cn.level_2 + 1, 0, 0⟩
  | 3 => ⟨cn.level_1, cn.level_2, cn.level_3 + 1, 0⟩
  | 4 => ⟨cn.level_1, cn.level_2, cn.level_3, cn.level_4 + 1⟩
  | _ => cn

/-- Decimal rendering of a counter (`format!` with `{}`). -/
def natToChars (n : Nat) : List Char := Nat.toDigits 10 n

/-- `DocxParser::format_numbering`. -/
def format_numbering (level : Nat) (cn : CurrentNumbering) : List Char :=
  match level with
  | 1 => natToChars cn.level_1 ++ ['.', ' ']
  | 2 => natToChars cn.level_1 ++ ['.'] ++ natToChars cn.level_2 ++ ['.', ' ']
  | 3 => natToChars cn.level_1 ++ ['.'] ++ natToChars cn.level_2 ++ ['.'] ++
      natToChars cn.level_3 ++ ['.', ' ']
  | 4 => natToChars cn.level_1 ++ ['.'] ++ natToChars cn.level_2 ++ ['.'] ++
      natToChars cn.level_3 ++ ['.'] ++ natToChars cn.level_4 ++ ['.', ' ']
  | _ => []

/-- A numbered-paragraph step shared by the three numbered branches of
`process_paragraph`. -/
def numberedStep (text : List Char) (style : Option (List Char)) (level : Nat)
    (cn : CurrentNumbering) (last_main_point : Nat) :
    Option ParagraphInfo × CurrentNumbering :=
  let cn' := update_numbering_for_level level cn last_main_point
  (some (ParagraphInfo.with_numbering text style level (format_numbering level cn')),
    cn')

/-- The style fallback at the end of `process_paragraph`. -/
def styleFallback (text : List Char) (style : Option (List Char))
    (cn : CurrentNumbering) (last_main_point : Nat) :
    Option ParagraphInfo × CurrentNumbering :=
  match style with
  | some style_name =>
    match get_style_level style_name with
    | some level => numberedStep text style level cn last_main_point
    | none => (some (ParagraphInfo.plain text style), cn)
  | none => (some (ParagraphInfo.plain text style), cn)

/-- `DocxParser::process_paragraph`.  The mutable `current_numbering` is
threaded as state; `last_main_point` is read-only here and updated by the
driver. -/
def process_paragraph (text : List Char) (style : Option (List Char))
    (num_pr : Option (Option (List Char) × Option (List Char)))
    (cn : CurrentNumbering) (last_main_point : Nat) :
    Option ParagraphInfo × CurrentNumbering :=
  if matchesBasis text then (some (ParagraphInfo.plain text style), cn)
  else if matchesNumbering text && !matchesQuoteNumbering text then
    (some (ParagraphInfo.plain text style), cn)
  else if matchesQuoteNumbering text && num_pr.isSome then
    match num_pr with
    | some (ilvl, num_id) =>
      match get_numbering_level ilvl num_id with
      | some level => numberedStep text style level cn last_main_point
      | none => (some (ParagraphInfo.plain text style), cn)
    | none => (some (ParagraphInfo.plain text style), cn)
  else if matchesQuoteNumbering text then
    (some (ParagraphInfo.plain text style), cn)
  else
    match num_pr with
    | some (ilvl, num_id) =>
      match get_numbering_level ilvl num_id with
      | some level => numberedStep text style level cn last_main_point
      | none => styleFallback text style cn last_main_point
    | none => styleFallback text style cn last_main_point

/-- One raw paragraph as accumulated by the XML reader: run text, pStyle,
and numPr `(ilvl, numId)`. -/
def RawPara : Type :=
  List Char × Option (List Char) × Option (Option (List Char) × Option (List Char))

/-- The per-paragraph driver of `extract_hierarchical_numbering`: skip
empty/service paragraphs, process the rest, and update `last_main_point`
after emitting a level-1 paragraph. -/
def extractLoop : List RawPara → CurrentNumbering → Nat → List ParagraphInfo
  | [], _, _ => []
  | (text, style, numPr) :: rest, cn, lmp =>
    let raw := trimChars text
    if raw.isEmpty || should_skip_text raw then extractLoop rest cn lmp
    else
      match process_paragraph raw style numPr cn lmp with
      | (some info, cn') =>
        info :: extractLoop rest cn' (if info.level = some 1 then cn'.level_1 else lmp)
      | (none, cn') => extractLoop rest cn' lmp

/-- The section-building loop of `format_paragraphs`. -/
def formatLoop : List ParagraphInfo → List Char → List (List Char)
  | [], current => if current.isEmpty then [] else [trimChars current]
  | p :: rest, current =>
    let formatted :=
      if p.has_numbering then
        match p.calculated_number with
        | some n => n ++ p.text
        | none => p.text
      else p.text
    if p.has_numbering then
      if current.isEmpty then formatLoop rest formatted
      else trimChars current :: formatLoop rest formatted
    else
      formatLoop rest (if current.isEmpty then formatted else current ++ '\n' :: formatted)

/-- The final newline-splitting pass of `format_paragraphs`. -/
def splitNl (paragraph : List Char) : List (List Char) :=
  if paragraph.contains '\n' then
    ((paragraph.splitOn '\n').map trimChars).filter (fun t => !t.isEmpty)
  else [paragraph]

/-- `DocxParser::format_paragraphs`. -/
def format_paragraphs (ps : List ParagraphInfo) : List (List Char) :=
  ((formatLoop ps []).map splitNl).flatten

/-- `DocxParser::parse` over an already-XML-decoded paragraph stream. -/
def parse_paragraphs (ps : List RawPara) : List (List Char) :=
  format_paragraphs (extractLoop ps ⟨0, 0, 0, 0⟩ 0)

end Docx

example :
    Docx.parse_paragraphs
      [("A".toList, some ("OiiSList1".toList), none),
       ("B".toList, some ("OiiSList2".toList), none),
       ("C".toList, some ("OiiSList2".toList), none),
       ("D".toList, some ("OiiSList1".toList), none)]
    = ["1. A".toList, "1.1. B".toList, "1.2. C".toList, "2. D".toList] := by decide

/-- C6: the extractor advances the four-counter numbering state as
specified (level 1: `L1 = last emitted L1 + 1`, `L2=L3=L4=0`; level 2:
`L2 += 1`, `L3=L4=0`; level 3: `L3 += 1`, `L4=0`; level 4: `L4 += 1`) and
emits the dotted prefix for the level; the style run `OiiSList1,
OiiSList2, OiiSList2, OiiSList1` over texts `A,B,C,D` yields the
paragraphs `1. A`, `1.1. B`, `1.2. C`, `2. D`. -/
theorem claim_C6 :
    (∀ (cn : Docx.CurrentNumbering) (lmp : Nat),
      Docx.update_numbering_for_level 1 cn lmp = ⟨lmp + 1, 0, 0, 0⟩ ∧
      Docx.update_numbering_for_level 2 cn lmp
        = ⟨cn.level_1, cn.level_2 + 1, 0, 0⟩ ∧
      Docx.update_numbering_for_level 3 cn lmp
        = ⟨cn.level_1, cn.level_2, cn.level_3 + 1, 0⟩ ∧
      Docx.update_numbering_for_level 4 cn lmp
        = ⟨cn.level_1, cn.level_2, cn.level_3, cn.level_4 + 1⟩ ∧
      Docx.format_numbering 1 cn = Docx.natToChars cn.level_1 ++ ". ".toList ∧
      Docx.format_numbering 2 cn
        = Docx.natToChars cn.level_1 ++ ".".toList ++
          Docx.natToChars cn.level_2 ++ ". ".toList ∧
      Docx.format_numbering 3 cn
        = Docx.natToChars cn.level_1 ++ ".".toList ++
          Docx.natToChars cn.level_2 ++ ".".toList ++
          Docx.natToChars cn.level_3 ++ ". ".toList ∧
      Docx.format_numbering 4 cn
        = Docx.natToChars cn.level_1 ++ ".".toList ++
          Docx.natToChars cn.level_2 ++ ".".toList ++
          Docx.natToChars cn.level_3 ++ ".".toList ++
          Docx.natToChars cn.level_4 ++ ". ".toList) ∧
    Docx.parse_paragraphs
      [("A".toList, some ("OiiSList1".toList), none),
       ("B".toList, some ("OiiSList2".toList), none),
       ("C".toList, some ("OiiSList2".toList), none),
       ("D".toList, some ("OiiSList1".toList), none)]
    = ["1. A".toList, "1.1. B".toList, "1.2. C".toList, "2. D".toList] :=
  ⟨fun cn lmp => ⟨rfl, rfl, rfl, rfl, rfl, rfl, rfl, rfl⟩, by decide⟩

/-! ### Folder scanner / reconciler (`folder_processor.rs`, claims C1, C2) -/

instance : Inhabited DocumentRecord := ⟨⟨[], [], 0, 0, 0, [], 0, 0⟩⟩

/-- One file of the modelled filesystem: path, size, modification time,
and the `DocumentRecord` it parses to (`none` = parse error).  `fs` is
queried both by the walker (via the walk list) and by `fs::metadata`
lookups on stored record paths. -/
structure FsFile where
  path : List Char
  size : Nat
  mtime : Nat
  parse : Option DocumentRecord

/-- `fs::metadata` on the modelled filesystem. -/
def fsMeta (fs : List FsFile) (p : List Char) : Option (Nat × Nat) :=
  (fs.find? (fun f => decide (f.path = p))).map (fun f => (f.size, f.mtime))

/-- `parse_docx_with_structure` + `DocumentRecord::new_with_paragraphs`
on the modelled filesystem. -/
def fsParse (fs : List FsFile) (p : List Char) : Option DocumentRecord :=
  (fs.find? (fun f => decide (f.path = p))).bind (fun f => f.parse)

/-- The `FolderProcessor` statistics structure from
`src/folder_processor.rs` (errors kept as a count). -/
structure FolderProcessor where
  processed_files : Nat
  skipped_files : Nat
  deleted_files : Nat
  errors : Nat
  new_or_updated_indices : List Nat
  deleted_file_paths : List (List Char)
  renamed_indices : List Nat
  deriving DecidableEq

/-- `FolderProcessor::new`. -/
def FolderProcessor.new : FolderProcessor := ⟨0, 0, 0, 0, [], [], []⟩

namespace FolderProc

/-- The mutable state of the walk loop of `process_folder_incremental`:
the forward index, `existing_docs_map`, `size_time_to_doc`,
`found_files`, and the processor statistics. -/
structure ScanState where
  index : DocumentIndex
  edm : List (List Char × (Nat × Nat))
  stdoc : List ((Nat × Nat) × (Nat × List Char))
  found : List (List Char)
  fp : FolderProcessor

/-- The `should_process` body: parse the file and replace in place (when
the path is still in `existing_docs_map`) or append a new record. -/
def processFile (fs : List FsFile) (st : ScanState) (path : List Char) : ScanState :=
  match fsParse fs path with
  | none => { st with fp := { st.fp with errors := st.fp.errors + 1 } }
  | some new_document =>
    match lookupA st.edm path with
    | some q =>
      let docs' := st.index.documents.set q.1 new_document
      { st with
        index := { st.index with
          documents := docs',
          total_words := st.index.total_words + (docs'.getD q.1 default).word_count,
          total_documents := docs'.length },
        edm := removeA st.edm path,
        fp := { st.fp with
          new_or_updated_indices := st.fp.new_or_updated_indices ++ [q.1],
          processed_files := st.fp.processed_files + 1 } }
    | none =>
      let docs' := st.index.documents ++ [new_document]
      let doc_index := docs'.length - 1
      { st with
        index := { st.index with
          documents := docs',
          total_words := st.index.total_words + (docs'.getD doc_index default).word_count,
          total_documents := docs'.length },
        fp := { st.fp with
          new_or_updated_indices := st.fp.new_or_updated_indices ++ [doc_index],
          processed_files := st.fp.processed_files + 1 } }

/-- One walked candidate file of `process_folder_incremental`: record it
in `found_files`, classify it as unchanged / updated / rename candidate /
new, and process it when needed. -/
def scanStep (fs : List FsFile) (st : ScanState) (path : List Char) : ScanState :=
  let st := { st with found := st.found ++ [path] }
  match fsMeta fs path with
  | none => { st with fp := { st.fp with errors := st.fp.errors + 1 } }
  | some sm =>
    match lookupA st.edm path with
    | some q =>
      if sm.2 > q.2 then
        let idx' := { st.index with
                      total_words := st.index.total_words -
                        (st.index.documents.getD q.1 default).word_count }
        processFile fs { st with index := idx' } path
      else
        { st with fp := { st.fp with skipped_files := st.fp.skipped_files + 1 } }
    | none =>
      match lookupA st.stdoc sm with
      | some oldq =>
        if oldq.2 ≠ path then
          let oldDoc := st.index.documents.getD oldq.1 default
          let docs' := st.index.documents.set oldq.1 { oldDoc with file_path := path }
          { st with
            index := { st.index with documents := docs' },
            edm := insertA (removeA st.edm oldq.2) path (oldq.1, sm.2),
            fp := { st.fp with
              renamed_indices := st.fp.renamed_indices ++ [oldq.1] } }
        else processFile fs st path
      | none => processFile fs st path

/-- The post-walk deletion phase: records whose paths were not observed
are captured into `deleted_file_paths` and removed from the forward
sequence from the highest index downward. -/
def deletePhase (index : DocumentIndex) (fp : FolderProcessor)
    (found : List (List Char)) : DocumentIndex × FolderProcessor :=
  let files_to_remove := index.documents.enum.filter
    (fun q => decide (q.2.file_path ∉ found))
  let fp1 := { fp with deleted_file_paths :=
    fp.deleted_file_paths ++ files_to_remove.map (fun q => q.2.file_path) }
  (files_to_remove.reverse).foldl
    (fun st q =>
      let removed := st.1.documents.getD q.1 default
      ({ st.1 with
          documents := st.1.documents.eraseIdx q.1,
          total_words := st.1.total_words - removed.word_count },
        { st.2 with deleted_files := st.2.deleted_files + 1 }))
    (index, fp1)

/-- The index-remapping phase: when anything was added, updated or
renamed, build the `old index → new index` map from the (post-deletion)
documents — the sort being disabled, it is the identity on surviving
positions — and remap both index lists through it, dropping entries the
map does not cover. -/
def remapPhase (index : DocumentIndex) (fp : FolderProcessor) : FolderProcessor :=
  let old_to_new : List (Nat × Nat) :=
    if !fp.new_or_updated_indices.isEmpty || !fp.renamed_indices.isEmpty then
      let p2old := index.documents.enum.foldl
        (fun m q => insertA m q.2.file_path q.1) []
      let p2new := index.documents.enum.foldl
        (fun m q => insertA m q.2.file_path q.1) []
      p2old.foldl
        (fun m q =>
          match lookupA p2new q.1 with
          | some n => insertA m q.2 n
          | none => m) []
    else []
  { fp with
    new_or_updated_indices :=
      fp.new_or_updated_indices.filterMap (fun i => lookupA old_to_new i),
    renamed_indices :=
      fp.renamed_indices.filterMap (fun i => lookupA old_to_new i) }

/-- `FolderProcessor::process_folder_incremental` over the modelled
filesystem: `walk` is the list of candidate `.docx` paths in walk order
(the name filters and directory exclusions are applied by the walker),
`now` the wall-clock stamp. -/
def process_folder_incremental (fs : List FsFile) (walk : List (List Char))
    (existing_index : Option DocumentIndex) (now : Nat) :
    DocumentIndex × FolderProcessor :=
  let index := existing_index.getD ⟨[], 0, 0, now⟩
  let edm0 := index.documents.enum.foldl
    (fun m q => insertA m q.2.file_path (q.1, q.2.last_modified)) []
  let stdoc0 := index.documents.enum.foldl
    (fun m q =>
      match fsMeta fs q.2.file_path with
      | some sm => insertA m sm (q.1, q.2.file_path)
      | none => m) []
  let s := walk.foldl (scanStep fs) ⟨index, edm0, stdoc0, [], FolderProcessor.new⟩
  let r := deletePhase s.index s.fp s.found
  let fp2 := remapPhase r.1 r.2
  ({ r.1 with total_documents := r.1.documents.length, indexed_at := now }, fp2)

end FolderProc

/-- The inverted-index patch of `AtomicIndexManager::update` after a scan
with changes: `build_incremental` over the new/updated ids (or just a
document-count refresh when only renames happened), then
`remove_deleted_documents_by_paths` against the already-updated forward
index, then `remove_duplicate_entries`. -/
def updateInverted (existing_inv : Option InvertedIndex)
    (updated_doc_index : DocumentIndex) (fp : FolderProcessor) : InvertedIndex :=
  let content_changed :=
    !fp.new_or_updated_indices.isEmpty || !fp.deleted_file_paths.isEmpty
  let inv0 :=
    if content_changed then
      InvIdx.build_incremental existing_inv updated_doc_index fp.new_or_updated_indices
    else
      { existing_inv.getD ⟨[], 0⟩ with
        total_documents := updated_doc_index.total_documents }
  let inv1 :=
    if !fp.deleted_file_paths.isEmpty then
      InvIdx.remove_deleted_documents_by_paths inv0 fp.deleted_file_paths
        updated_doc_index
    else inv0
  InvIdx.remove_duplicate_entries inv1

/-! ### Concrete reconcile scenarios for claims C1 and C2 -/

/-- Document `A.docx` (doc id 0) for the deletion scenario. -/
def docA : DocumentRecord :=
  ⟨"A.docx".toList, "A.docx".toList, 10, 5, 5, ["xx yy".toList], 2, 1⟩

/-- Document `B.docx` (doc id 1) for the deletion scenario. -/
def docB : DocumentRecord :=
  ⟨"B.docx".toList, "B.docx".toList, 20, 6, 6, ["zz ww".toList], 2, 1⟩

/-- Forward index holding `A.docx` at id 0 and `B.docx` at id 1. -/
def forwardAB : DocumentIndex := ⟨[docA, docB], 2, 4, 0⟩

/-- Inverted index matching `forwardAB`, built by the indexer itself. -/
def invAB : InvertedIndex := InvIdx.build_incremental none forwardAB [0, 1]

/-- The disk after `A.docx` has been deleted: only `B.docx` remains,
unchanged. -/
def fsDel : List FsFile := [⟨"B.docx".toList, 20, 6, some docB⟩]

/-- The reconcile run of the deletion scenario. -/
def scanC1 : DocumentIndex × FolderProcessor :=
  FolderProc.process_folder_incremental fsDel ["B.docx".toList] (some forwardAB) 7

/-- The inverted index after the manager patches it for the deletion
scenario. -/
def invC1 : InvertedIndex := updateInverted (some invAB) scanC1.1 scanC1.2

/-- Document `{path: A.docx, size: 1024, mtime: 1700000000}` of the
rename scenario. -/
def docA2 : DocumentRecord :=
  ⟨"A.docx".toList, "A.docx".toList, 1024, 1700000000, 1700000000,
    ["xx yy".toList], 2, 1⟩

/-- What `B.docx` parses to in the rename scenario (same bytes as
`A.docx`, new path). -/
def docB2 : DocumentRecord :=
  ⟨"B.docx".toList, "B.docx".toList, 1024, 1700000000, 1700000000,
    ["xx yy".toList], 2, 1⟩

/-- Forward index holding only the `A.docx` record. -/
def forwardA2 : DocumentIndex := ⟨[docA2], 1, 2, 0⟩

/-- The disk of the rename scenario: `A.docx` is gone, `B.docx` is
present with exactly the indexed size and mtime. -/
def fsRen : List FsFile := [⟨"B.docx".toList, 1024, 1700000000, some docB2⟩]

/-- The reconcile run of the rename scenario. -/
def scanC2 : DocumentIndex × FolderProcessor :=
  FolderProc.process_folder_incremental fsRen ["B.docx".toList] (some forwardA2) 9

/-- C1: in the deletion scenario (indexed `A.docx` at doc id 0 and
`B.docx` at doc id 1; `A.docx` disappears from disk) the reconcile +
patch + dedupe pipeline violates the claim: the forward index indeed no
longer holds `A.docx`, but because `remove_deleted_documents_by_paths`
resolves the deleted paths against the already-updated forward index it
removes nothing, so the inverted index still holds a `DocPosition` with
the deleted record's former doc id 0 (stems `xx`, `yy`) — which now
denotes the surviving `B.docx` — and `B.docx`'s own postings still carry
its former doc id 1 (stems `zz`, `ww`), now out of range; moreover the
surviving record's doc id shifted from 1 to 0 because `Vec::remove`
compacts the document vector. -/
theorem claim_C1 :
    scanC1.1.documents.map DocumentRecord.file_path = ["B.docx".toList] ∧
    scanC1.2.deleted_file_paths = ["A.docx".toList] ∧
    forwardAB.documents.get? 1 = some docB ∧
    scanC1.1.documents.get? 0 = some docB ∧
    lookupA invC1.word_to_docs "xx".toList = some [⟨0, [0]⟩] ∧
    lookupA invC1.word_to_docs "yy".toList = some [⟨0, [0]⟩] ∧
    lookupA invC1.word_to_docs "zz".toList = some [⟨1, [0]⟩] ∧
    lookupA invC1.word_to_docs "ww".toList = some [⟨1, [0]⟩] ∧
    invC1.total_documents = 1 := by decide

/-- C2: in the spec's own rename scenario (record
`{path: A.docx, size: 1024, mtime: 1700000000}`; disk now has `B.docx`
with the same size and mtime and no `A.docx`) no rename is detected:
`size_time_to_doc` is built from `fs::metadata` of each record's OLD
path, which fails for a genuinely renamed file, so the map stays empty
and the scan re-parses `B.docx` as a brand-new document
(`processed_files = 1`, `renamed_indices = []`) and deletes the `A.docx`
record instead of mutating its path in place. -/
theorem claim_C2 :
    fsMeta fsRen docA2.file_path = none ∧
    fsMeta fsRen docB2.file_path = some (docA2.file_size, docA2.last_modified) ∧
    scanC2.2.renamed_indices = [] ∧
    scanC2.2.processed_files = 1 ∧
    scanC2.2.deleted_file_paths = [docA2.file_path] ∧
    scanC2.1.documents = [docB2] := by decide

end Blazing